import Mathlib

/-!
Shallow embedding of the `computation-dag-async` crate.

The embedding mirrors `src/operation.rs`, `src/dag.rs` and `src/computation.rs`:
- `Operation` / `OperationType` and the four reduction functions;
- `Dag` with its `HashMap<Nat, Node>` modelled as an association list with
  unique keys, `add_node` modelled with an explicit `panicked` outcome for the
  `unwrap()` on a missing parent;
- `Computation::new` modelled as a function of the dag together with an
  explicit iteration order `iter` for the `HashMap` (Rust's `HashMap` iteration
  order is unspecified, so theorems quantify over permutations of the key set);
  hitting a failing `unwrap()` yields `none`;
- tokio oneshot channels are modelled by numbering each allocated channel with
  a counter; a sender endpoint and a receiver endpoint are the same number;
- `Computation::process` (spawn all node tasks, `join_all`, then drain the
  result receivers) is modelled by a deterministic round-based scheduler:
  every round fires every node task whose inbound channels are all written;
  as many rounds as there are nodes are always enough for an execution that
  terminates, and `none` models a run that hangs or panics.

Values are modelled as `Int` (the crate is generic; its tests use `i32`).
-/

set_option maxRecDepth 4000

namespace DagAsync

/-! ## operation.rs -/

inductive OperationType
  | default
  | delay
  | sum
  | product
deriving DecidableEq, Repr

structure Operation where
  operation_type : OperationType
deriving DecidableEq, Repr

namespace operation

def default (_values : List Int) : Int := 0

def delay (_values : List Int) : Int := 0

def sum (values : List Int) : Int := values.sum

def product (values : List Int) : Int := values.prod

end operation

def Operation.process (op : Operation) (values : List Int) : Int :=
  match op.operation_type with
  | OperationType.default => operation.default values
  | OperationType.delay => operation.delay values
  | OperationType.sum => operation.sum values
  | OperationType.product => operation.product values

def Operation.defaultOp : Operation := { operation_type := OperationType.default }

def sumOp : Operation := { operation_type := OperationType.sum }

def productOp : Operation := { operation_type := OperationType.product }

def defaultOp : Operation := { operation_type := OperationType.default }

/-! ## dag.rs -/

structure Node where
  id : Nat
  children : List Nat
  operation : Operation
deriving DecidableEq, Repr

def Node.new (id : Nat) (operation : Operation) : Node :=
  { id := id, children := [], operation := operation }

structure Dag where
  nodes : List (Nat × Node)
  starts : List Nat
  current_id : Nat
deriving DecidableEq, Repr

/-- Keys of the nodes map, in insertion order. -/
def keysOf (l : List (Nat × Node)) : List Nat := l.map (·.1)

def containsKey (l : List (Nat × Node)) (k : Nat) : Bool := l.any (·.1 == k)

def lookupNode (l : List (Nat × Node)) (k : Nat) : Option Node :=
  (l.find? (·.1 == k)).map (·.2)

/-- `HashMap::insert`: replace the binding if the key is present, else add it. -/
def insertNode (l : List (Nat × Node)) (k : Nat) (v : Node) : List (Nat × Node) :=
  if containsKey l k then l.map (fun e => if e.1 == k then (k, v) else e) else l ++ [(k, v)]

/-- `nodes.get_mut(k).unwrap().children.push(cid)`, restricted to present keys. -/
def pushChild (l : List (Nat × Node)) (k : Nat) (cid : Nat) : List (Nat × Node) :=
  l.map (fun e => if e.1 == k then (e.1, { e.2 with children := e.2.children ++ [cid] }) else e)

/-- Outcome of `Dag::add_node`: either the updated dag and the new id, or a
panic (from `get_mut(parent_id).unwrap()`), recording the dag state at the
moment of the panic (the node map mutations already performed remain). -/
inductive AddNodeResult
  | ok (d : Dag) (id : Nat)
  | panicked (d : Dag)
deriving DecidableEq, Repr

def Dag.next_id (d : Dag) : Dag × Nat :=
  ({ d with current_id := d.current_id + 1 }, d.current_id + 1)

/-- The `parents.iter().for_each` loop of `Dag::add_node`: push the new id onto
each listed parent's children, panicking at the first parent id absent from the
node map. -/
def addParentsLoop (id : Nat) (d : Dag) : List Nat → AddNodeResult
  | [] => .ok d id
  | p :: rest =>
    if containsKey d.nodes p then
      addParentsLoop id { d with nodes := pushChild d.nodes p id } rest
    else
      .panicked d

def Dag.add_node (d : Dag) (operation : Operation) (parents : List Nat) : AddNodeResult :=
  let (d0, id) := d.next_id
  let node := Node.new id operation
  let d1 : Dag := { d0 with nodes := insertNode d0.nodes id node }
  if parents.length == 0 then
    .ok { d1 with starts := d1.starts ++ [id] } id
  else
    addParentsLoop id d1 parents

def Dag.default : Dag := { nodes := [], starts := [], current_id := 0 }

/-- Run a sequence of `add_node` calls from a given dag; `none` if a call
panics. -/
def buildFrom (d : Dag) : List (Operation × List Nat) → Option Dag
  | [] => some d
  | (op, ps) :: rest =>
    match d.add_node op ps with
    | .ok d' _ => buildFrom d' rest
    | .panicked _ => none

def buildDag (script : List (Operation × List Nat)) : Option Dag :=
  buildFrom Dag.default script

/-- `Dag::dot`, with the `HashMap` iteration order made explicit as `iter`. -/
def Dag.dot (d : Dag) (iter : List Nat) : String :=
  let body := iter.foldl (fun acc id =>
    match lookupNode d.nodes id with
    | none => acc
    | some node =>
      if node.children.length == 0 then
        acc ++ "  " ++ toString id ++ ";\n"
      else
        node.children.foldl
          (fun acc2 cid => acc2 ++ "  " ++ toString id ++ " -> " ++ toString cid ++ ";\n")
          acc) ("digraph \x7b\n")
  body ++ "\x7d"

/-! ## computation.rs: compilation -/

structure ComputationNode where
  id : Nat
  operation : Operation
  receivers : List Nat
  senders : List Nat
deriving DecidableEq, Repr

def ComputationNode.new (id : Nat) (operation : Operation) : ComputationNode :=
  { id := id, operation := operation, receivers := [], senders := [] }

abbrev CompMap := List (Nat × ComputationNode)

def keysC (m : CompMap) : List Nat := m.map (·.1)

def lookupComp (m : CompMap) (k : Nat) : Option ComputationNode :=
  (m.find? (·.1 == k)).map (·.2)

def eraseComp (m : CompMap) (k : Nat) : CompMap := m.filter (fun e => !(e.1 == k))

def insertComp (m : CompMap) (k : Nat) (v : ComputationNode) : CompMap :=
  if m.any (·.1 == k) then m.map (fun e => if e.1 == k then (k, v) else e) else m ++ [(k, v)]

/-- `computations.get_mut(k).unwrap().add_input(c)`, restricted to present keys. -/
def addInput (m : CompMap) (k : Nat) (c : Nat) : CompMap :=
  m.map (fun e => if e.1 == k then (e.1, { e.2 with receivers := e.2.receivers ++ [c] }) else e)

structure Computation where
  result_receivers : List Nat
  initial_senders : List Nat
  computations : CompMap
deriving DecidableEq, Repr

/-- First loop of `Computation::new`: one `ComputationNode` per dag node, in
iteration order. -/
def createComps (d : Dag) : List Nat → Option CompMap
  | [] => some []
  | id :: rest => do
    let node ← lookupNode d.nodes id
    let m ← createComps d rest
    some ((id, ComputationNode.new id node.operation) :: m)

/-- Inner loop of the wiring pass: one channel per child registration.
The channel counter `ctr` numbers each allocated channel. -/
def wireChildren (parent : ComputationNode) (m : CompMap) (ctr : Nat) :
    List Nat → Option (ComputationNode × CompMap × Nat)
  | [] => some (parent, m, ctr)
  | cid :: rest =>
    if m.any (·.1 == cid) then
      wireChildren { parent with senders := parent.senders ++ [ctr] }
        (addInput m cid ctr) (ctr + 1) rest
    else none

/-- Second loop of `Computation::new`: for each node in iteration order, either
allocate its single result channel (no children) or one channel per child. -/
def wireNodes (d : Dag) (m : CompMap) (ctr : Nat) (rres : List Nat) :
    List Nat → Option (CompMap × Nat × List Nat)
  | [] => some (m, ctr, rres)
  | id :: rest => do
    let parent ← lookupComp m id
    let m1 := eraseComp m id
    let node ← lookupNode d.nodes id
    if node.children.isEmpty then
      wireNodes d (insertComp m1 id { parent with senders := parent.senders ++ [ctr] })
        (ctr + 1) (rres ++ [ctr]) rest
    else
      match wireChildren parent m1 ctr node.children with
      | none => none
      | some (parent', m2, ctr') => wireNodes d (insertComp m2 id parent') ctr' rres rest

/-- Third loop of `Computation::new`: one initial-value channel per start id. -/
def wireStarts (m : CompMap) (ctr : Nat) (isends : List Nat) :
    List Nat → Option (CompMap × Nat × List Nat)
  | [] => some (m, ctr, isends)
  | s :: rest =>
    if m.any (·.1 == s) then
      wireStarts (addInput m s ctr) (ctr + 1) (isends ++ [ctr]) rest
    else none

def Computation.new (d : Dag) (iter : List Nat) : Option Computation := do
  let m0 ← createComps d iter
  let (m1, ctr1, rres) ← wireNodes d m0 0 [] iter
  let (m2, _ctr2, isends) ← wireStarts m1 ctr1 [] d.starts
  some { result_receivers := rres, initial_senders := isends, computations := m2 }

/-! ## computation.rs: execution -/

abbrev ChanMap := List (Nat × Int)

def readChan (st : ChanMap) (c : Nat) : Option Int := (st.find? (·.1 == c)).map (·.2)

/-- The body of `ComputationNode::process`: read every inbound channel in
order, apply the operation, write the result to every outbound channel.
`none` when some inbound channel has not been written yet. -/
def ComputationNode.process (n : ComputationNode) (st : ChanMap) : Option ChanMap :=
  (n.receivers.mapM (readChan st)).map (fun inputs =>
    st ++ n.senders.map (fun c => (c, n.operation.process inputs)))

/-- One scheduling step: fire the task of node `e` if it has not fired yet and
all its inputs are available. -/
def stepNode (acc : ChanMap × List Nat) (e : Nat × ComputationNode) :
    ChanMap × List Nat :=
  if acc.2.contains e.1 then acc
  else
    match e.2.process acc.1 with
    | none => acc
    | some st' => (st', e.1 :: acc.2)

def runRound (m : CompMap) (acc : ChanMap × List Nat) : ChanMap × List Nat :=
  m.foldl stepNode acc

def iterateRounds (m : CompMap) : Nat → (ChanMap × List Nat) → ChanMap × List Nat
  | 0, acc => acc
  | n + 1, acc => iterateRounds m n (runRound m acc)

/-- `Computation::process`: write the initial value into every initial-value
channel, run every node task to completion (`join_all`), then drain the result
receivers in order.  `none` models a run that hangs (some task never becomes
ready) or panics on an unwritten result channel. -/
def Computation.process (comp : Computation) (initial : Int) : Option (List Int) :=
  let st0 := comp.initial_senders.map (fun c => (c, initial))
  let (st, fired) := iterateRounds comp.computations comp.computations.length (st0, [])
  if fired.length == comp.computations.length then
    comp.result_receivers.mapM (readChan st)
  else none

/-- Build a dag from a script, compile it with iteration order `iter`, run it. -/
def runScript (script : List (Operation × List Nat)) (iter : List Nat)
    (initial : Int) : Option (List Int) := do
  let d ← buildDag script
  let comp ← Computation.new d iter
  comp.process initial

/-! ## Derived notions used by the claims -/

/-- A script is good from `d` when every `add_node` call only lists parent ids
already present in the node map. -/
def goodFrom (d : Dag) : List (Operation × List Nat) → Bool
  | [] => true
  | (op, ps) :: rest =>
    ps.all (containsKey d.nodes) &&
      (match d.add_node op ps with
       | .ok d' _ => goodFrom d' rest
       | .panicked _ => false)

def goodScript (script : List (Operation × List Nat)) : Bool :=
  goodFrom Dag.default script

/-- The edge relation of a dag: `a → b` when `b` is a child of `a`. -/
def EdgeD (d : Dag) (a b : Nat) : Prop :=
  ∃ node, lookupNode d.nodes a = some node ∧ b ∈ node.children

/-- Reachability along one or more edges. -/
def Reaches (d : Dag) : Nat → Nat → Prop := Relation.TransGen (EdgeD d)

/-- Start ids a good script is expected to produce (`next` = current id before
the script runs): the fresh id of every call with an empty parent list. -/
def expectedStartsFrom (next : Nat) : List (Operation × List Nat) → List Nat
  | [] => []
  | (_, ps) :: rest =>
    (if ps.isEmpty then [next + 1] else []) ++ expectedStartsFrom (next + 1) rest

def expectedStarts (script : List (Operation × List Nat)) : List Nat :=
  expectedStartsFrom 0 script

def childrenOfD (d : Dag) (p : Nat) : List Nat :=
  match lookupNode d.nodes p with
  | some node => node.children
  | none => []

/-- Channels allocated for a node during the wiring pass: one if it has no
children, one per child registration otherwise. -/
def outDegree (d : Dag) (p : Nat) : Nat :=
  if (childrenOfD d p).isEmpty then 1 else (childrenOfD d p).length

/-- The channels flowing to target `t` among the channels `ctr, ctr+1, …`
allocated for the successive entries of a children list. -/
def edgeChans (ctr : Nat) : List Nat → Nat → List Nat
  | [], _ => []
  | c :: cs, t => (if c = t then [ctr] else []) ++ edgeChans (ctr + 1) cs t

/-- All channels flowing to target `t`, accumulated over the iteration order. -/
def inChans (d : Dag) (ctr : Nat) : List Nat → Nat → List Nat
  | [], _ => []
  | p :: rest, t => edgeChans ctr (childrenOfD d p) t ++ inChans d (ctr + outDegree d p) rest t

/-- The result-sink channels, in iteration order of the terminal nodes. -/
def termChans (d : Dag) (ctr : Nat) : List Nat → List Nat
  | [] => []
  | p :: rest =>
    (if (childrenOfD d p).isEmpty then [ctr] else []) ++ termChans d (ctr + outDegree d p) rest

/-- The outbound channel block of node `n` in the wiring pass. -/
def senderBlockAt (d : Dag) (ctr : Nat) : List Nat → Nat → List Nat
  | [], _ => []
  | p :: rest, n =>
    (if p = n then
      (if (childrenOfD d p).isEmpty then [ctr] else List.range' ctr (childrenOfD d p).length)
     else []) ++ senderBlockAt d (ctr + outDegree d p) rest n

/-- The initial-value channels flowing to node `n`, from the starts loop. -/
def startChans (ctr : Nat) : List Nat → Nat → List Nat
  | [], _ => []
  | s :: rest, n => (if s = n then [ctr] else []) ++ startChans (ctr + 1) rest n

/-- Total number of channels allocated by the wiring pass (loop two). -/
def totalOut (d : Dag) (iter : List Nat) : Nat := (iter.map (outDegree d)).sum

/-- The node whose senders contain channel `c` (the producer of `c`), if any. -/
def writerOf (comp : Computation) (c : Nat) : Option Nat :=
  (comp.computations.find? (fun e => e.2.senders.contains c)).map (·.1)

/-- The node whose receivers contain channel `c` (the consumer of `c`), if any. -/
def readerOf (comp : Computation) (c : Nat) : Option Nat :=
  (comp.computations.find? (fun e => e.2.receivers.contains c)).map (·.1)

/-- For each inbound channel of node `n`, in order, the id of the node that
produces it (`none` for an engine-held initial-value channel). -/
def inputWriters (comp : Computation) (n : Nat) : List (Option Nat) :=
  match lookupComp comp.computations n with
  | none => []
  | some cn => cn.receivers.map (writerOf comp)

/-- For each outbound channel of node `n`, in order, the id of the node that
consumes it (`none` for an engine-held result-sink channel). -/
def outputReaders (comp : Computation) (n : Nat) : List (Option Nat) :=
  match lookupComp comp.computations n with
  | none => []
  | some cn => cn.senders.map (readerOf comp)

/-! ## Concrete scripts from the spec's test properties -/

def diamondScript : List (Operation × List Nat) :=
  [(sumOp, []), (sumOp, []), (sumOp, []), (sumOp, [1, 2]), (sumOp, [2, 3]), (sumOp, [4, 5])]

def dotScript : List (Operation × List Nat) :=
  [(defaultOp, []), (defaultOp, []), (defaultOp, [1, 2]), (defaultOp, [3]), (defaultOp, [3])]

def twoTerminalScript : List (Operation × List Nat) :=
  [(sumOp, []), (defaultOp, [])]

def swappedParentsScript : List (Operation × List Nat) :=
  [(sumOp, []), (sumOp, []), (sumOp, [2, 1])]

/-- The two-node family of C9: a start node and a child registering the start
node `k` times as a parent. -/
def multiEdgeScript (k : Nat) : List (Operation × List Nat) :=
  [(sumOp, []), (sumOp, List.replicate k 1)]

/-- The dag the multi-edge script builds: node 1 carries `k` parallel edges to
node 2. -/
def famDag (k : Nat) : Dag :=
  { nodes := [(1, { id := 1, children := List.replicate k 2, operation := sumOp }),
              (2, { id := 2, children := [], operation := sumOp })],
    starts := [1],
    current_id := 2 }

/-- Structural invariant of dags built from the default dag by `add_node`
calls whose listed parents all exist at call time: the keys are exactly
`1, …, current_id` in insertion order, every edge increases the id, every
child id is a key, and every start id is a key. -/
structure DagOK (d : Dag) : Prop where
  keys_eq : keysOf d.nodes = List.range' 1 d.current_id
  child_lt : ∀ e ∈ d.nodes, ∀ c ∈ e.2.children, e.1 < c
  child_mem : ∀ e ∈ d.nodes, ∀ c ∈ e.2.children, c ∈ keysOf d.nodes
  starts_mem : ∀ s ∈ d.starts, s ∈ keysOf d.nodes

/-- Split a character list at every newline. -/
def splitChar : List Char → List (List Char)
  | [] => [[]]
  | c :: rest =>
    let r := splitChar rest
    if c = '\n' then [] :: r
    else
      match r with
      | [] => [[c]]
      | l :: ls => (c :: l) :: ls

/-- The lines of a rendered string (split at every newline). -/
def linesOf (s : String) : List String := (splitChar s.data).map String.mk

/-- The dag the render script builds: edges 1→3, 2→3, 3→4, 3→5. -/
def dotDag : Dag :=
  { nodes := [(1, { id := 1, children := [3], operation := defaultOp }),
              (2, { id := 2, children := [3], operation := defaultOp }),
              (3, { id := 3, children := [4, 5], operation := defaultOp }),
              (4, { id := 4, children := [], operation := defaultOp }),
              (5, { id := 5, children := [], operation := defaultOp })],
    starts := [1, 2],
    current_id := 5 }

/-- The wiring layout `Computation::new` produces on a well-formed dag
(established by `new_spec`): result sinks are the terminal channels in
iteration order, the initial-value channels are numbered after every edge
channel, and each node's endpoints follow the `inChans`/`startChans`/
`senderBlockAt` layout. -/
structure WiredComp (d : Dag) (iter : List Nat) (comp : Computation) : Prop where
  rres : comp.result_receivers = termChans d 0 iter
  isends : comp.initial_senders = List.range' (totalOut d iter) d.starts.length
  mem_iff : ∀ j, j ∈ keysC comp.computations ↔ j ∈ iter
  nodup : (keysC comp.computations).Nodup
  look_none : ∀ j, j ∉ iter → lookupComp comp.computations j = none
  look_some : ∀ j node, lookupNode d.nodes j = some node → j ∈ iter →
    lookupComp comp.computations j = some
      { id := j, operation := node.operation,
        receivers := inChans d 0 iter j ++ startChans (totalOut d iter) d.starts j,
        senders := senderBlockAt d 0 iter j }

/-- The dag the diamond script builds. -/
def diamondDag : Dag :=
  { nodes := [(1, { id := 1, children := [4], operation := sumOp }),
              (2, { id := 2, children := [4, 5], operation := sumOp }),
              (3, { id := 3, children := [5], operation := sumOp }),
              (4, { id := 4, children := [6], operation := sumOp }),
              (5, { id := 5, children := [6], operation := sumOp }),
              (6, { id := 6, children := [], operation := sumOp })],
    starts := [1, 2, 3],
    current_id := 6 }

/-! # Theorems -/

/-! ## C6: Sum and Product reductions -/

/-- C6: `Operation::process` with kind Sum returns the additive reduction
(the right fold of `+` over the inputs starting at `0`) and `0` on the empty
list; with kind Product it returns the multiplicative reduction and `1` on the
empty list. -/
theorem c6_sum_product_reductions (values : List Int) :
    Operation.process sumOp values = values.foldr (· + ·) 0 ∧
    Operation.process sumOp [] = 0 ∧
    Operation.process productOp values = values.foldr (· * ·) 1 ∧
    Operation.process productOp [] = 1 := by
  refine ⟨?_, rfl, ?_, rfl⟩
  · simp [Operation.process, sumOp, operation.sum, List.sum_eq_foldr]
  · simp [Operation.process, productOp, operation.product, List.prod_eq_foldr]

/-! ## C7: permutation invariance -/

/-- C7: `Operation::process` with kind Sum gives the same result on any two
lists that are permutations of each other, and likewise for kind Product. -/
theorem c7_permutation_invariant (l1 l2 : List Int) (h : l1.Perm l2) :
    Operation.process sumOp l1 = Operation.process sumOp l2 ∧
    Operation.process productOp l1 = Operation.process productOp l2 := by
  constructor
  · simp [Operation.process, sumOp, operation.sum, h.sum_eq]
  · simp [Operation.process, productOp, operation.product, h.prod_eq]

theorem c7_permutation_invariant_witness :
    List.Perm [(1 : Int), 2, 3] [3, 1, 2] ∧
    Operation.process sumOp [(1 : Int), 2, 3] = Operation.process sumOp [3, 1, 2] ∧
    Operation.process productOp [(1 : Int), 2, 3] = Operation.process productOp [3, 1, 2] := by
  have hp : List.Perm [(1 : Int), 2, 3] [3, 1, 2] := by decide
  exact ⟨hp, c7_permutation_invariant [1, 2, 3] [3, 1, 2] hp⟩

/-! ## C1: result order follows the unordered map's iteration order -/

/-- C1: the claim mandates results ordered by ascending terminal-node id, but
`Computation::process` drains the result receivers in the iteration order of
the `HashMap` of nodes, which is unspecified.  The graph with two terminal
start nodes (node 1: Sum, node 2: Default) run with initial value 3 yields
`[0, 3]` under iteration order `[2, 1]` and `[3, 0]` under `[1, 2]`; ascending
terminal-id order demands `[3, 0]` in both cases.  One result per terminal node
is nevertheless produced in both runs. -/
theorem c1_result_order_follows_iteration :
    runScript twoTerminalScript [2, 1] 3 = some [0, 3] ∧
    runScript twoTerminalScript [1, 2] 3 = some [3, 0] ∧
    ([0, 3] : List Int) ≠ [3, 0] := by
  exact ⟨by decide, by decide, by decide⟩

/-! ## C2: add_node with an unknown parent panics after mutating the graph -/

/-- C2 counterexample: `add_node` on the empty default dag with parent list
`[2]` does not fail with a recoverable error leaving the graph unchanged: it
panics (the `get_mut(parent_id).unwrap()`), and at the moment of the panic the
new node 1 has already been inserted and the id counter advanced. -/
theorem c2_counterexample :
    Dag.add_node Dag.default defaultOp [2] =
      AddNodeResult.panicked
        { nodes := [(1, { id := 1, children := [], operation := defaultOp })],
          starts := [], current_id := 1 } ∧
    ({ nodes := [(1, { id := 1, children := [], operation := defaultOp })],
       starts := [], current_id := 1 } : Dag) ≠ Dag.default := by
  exact ⟨by decide, by decide⟩

/-! ## C5: a self-registering parent defeats the claimed invariant -/

/-- C5 counterexample: the single call `add_node(op, [1])` on the empty default
dag succeeds (the parent lookup happens after the new node was inserted, so the
fresh id finds itself), producing an edge `1 → 1`: the edge does not go from an
existing node id to a strictly larger newly created id, and the edge relation
is not acyclic. -/
theorem c5_counterexample :
    buildDag [(defaultOp, [1])] =
      some { nodes := [(1, { id := 1, children := [1], operation := defaultOp })],
             starts := [], current_id := 1 } ∧
    ¬ (∀ e ∈ ({ nodes := [(1, { id := 1, children := [1], operation := defaultOp })],
                starts := [], current_id := 1 } : Dag).nodes,
        ∀ c ∈ e.2.children, e.1 < c) ∧
    Reaches { nodes := [(1, { id := 1, children := [1], operation := defaultOp })],
              starts := [], current_id := 1 } 1 1 := by
  refine ⟨by decide, by decide, ?_⟩
  exact Relation.TransGen.single ⟨{ id := 1, children := [1], operation := defaultOp }, rfl, by decide⟩

/-! ## C3: receivers are wired in map-iteration order, not registration order -/

/-- C3 counterexample: node 3 registers its parents in the order `[2, 1]`, but
compiling under map-iteration order `[1, 2, 3]` wires node 3's receivers with
node 1's channel first: the writers of node 3's inbound channels are
`[some 1, some 2]`, not the registration order `[some 2, some 1]`. -/
theorem c3_counterexample :
    ((buildDag swappedParentsScript).bind
        (fun d => Computation.new d [1, 2, 3])).map (fun c => inputWriters c 3) =
      some [some 1, some 2] ∧
    ([some 1, some 2] : List (Option Nat)) ≠ [some 2, some 1] := by
  exact ⟨by decide, by decide⟩

/-! ## C4: the diamond graph -/

set_option maxHeartbeats 4000000 in
theorem c4perm1 : ∀ t ∈ List.permutations' [2, 3, 4, 5, 6],
    runScript diamondScript (1 :: t) 1 = some [4] := by decide

set_option maxHeartbeats 4000000 in
theorem c4perm2 : ∀ t ∈ List.permutations' [1, 3, 4, 5, 6],
    runScript diamondScript (2 :: t) 1 = some [4] := by decide

set_option maxHeartbeats 4000000 in
theorem c4perm3 : ∀ t ∈ List.permutations' [1, 2, 4, 5, 6],
    runScript diamondScript (3 :: t) 1 = some [4] := by decide

set_option maxHeartbeats 4000000 in
theorem c4perm4 : ∀ t ∈ List.permutations' [1, 2, 3, 5, 6],
    runScript diamondScript (4 :: t) 1 = some [4] := by decide

set_option maxHeartbeats 4000000 in
theorem c4perm5 : ∀ t ∈ List.permutations' [1, 2, 3, 4, 6],
    runScript diamondScript (5 :: t) 1 = some [4] := by decide

set_option maxHeartbeats 4000000 in
theorem c4perm6 : ∀ t ∈ List.permutations' [1, 2, 3, 4, 5],
    runScript diamondScript (6 :: t) 1 = some [4] := by decide

/-- C4: building the diamond graph (nodes 1, 2, 3 Sum starts, node 4 =
Sum(1, 2), node 5 = Sum(2, 3), node 6 = Sum(4, 5)), compiling it under any
`HashMap` iteration order, and running it with initial value 1 returns `[4]`. -/
theorem c4_diamond_runs_to_four (iter : List Nat) (h : iter.Perm [1, 2, 3, 4, 5, 6]) :
    runScript diamondScript iter 1 = some [4] := by
  match iter with
  | [] => exact absurd h.length_eq (by decide)
  | a :: t =>
    have ha : a ∈ [1, 2, 3, 4, 5, 6] := h.subset (List.mem_cons_self a t)
    have ht : t.Perm ([1, 2, 3, 4, 5, 6].erase a) := by
      have h2 := h.erase a
      simpa using h2
    have ha' : a = 1 ∨ a = 2 ∨ a = 3 ∨ a = 4 ∨ a = 5 ∨ a = 6 := by simpa using ha
    rcases ha' with rfl | rfl | rfl | rfl | rfl | rfl
    · exact c4perm1 t (List.mem_permutations'.mpr (by simpa using ht))
    · exact c4perm2 t (List.mem_permutations'.mpr (by simpa using ht))
    · exact c4perm3 t (List.mem_permutations'.mpr (by simpa using ht))
    · exact c4perm4 t (List.mem_permutations'.mpr (by simpa using ht))
    · exact c4perm5 t (List.mem_permutations'.mpr (by simpa using ht))
    · exact c4perm6 t (List.mem_permutations'.mpr (by simpa using ht))

theorem c4_diamond_runs_to_four_witness :
    List.Perm [6, 2, 4, 1, 5, 3] [1, 2, 3, 4, 5, 6] ∧
    runScript diamondScript [6, 2, 4, 1, 5, 3] 1 = some [4] := by
  have hp : List.Perm [6, 2, 4, 1, 5, 3] [(1 : Nat), 2, 3, 4, 5, 6] := by decide
  exact ⟨hp, c4_diamond_runs_to_four [6, 2, 4, 1, 5, 3] hp⟩

/-! ## C8: dot rendering -/

set_option maxHeartbeats 4000000 in
theorem c8aux : ∀ o ∈ List.permutations' [1, 2, 3, 4, 5],
    (linesOf (dotDag.dot o)).count "  1 -> 3;" = 1 ∧
    (linesOf (dotDag.dot o)).count "  2 -> 3;" = 1 ∧
    (linesOf (dotDag.dot o)).count "  3 -> 4;" = 1 ∧
    (linesOf (dotDag.dot o)).count "  3 -> 5;" = 1 ∧
    (linesOf (dotDag.dot o)).count "  3;" = 0 ∧
    (linesOf (dotDag.dot o)).count "  4;" = 1 ∧
    (linesOf (dotDag.dot o)).count "  5;" = 1 := by decide

/-- C8: on the graph with edges 1→3, 2→3, 3→4, 3→5 (built by the five
`add_node` calls of `dotScript`), `Dag::dot` under any `HashMap` iteration
order emits exactly one line per edge (`"  1 -> 3;"`, `"  2 -> 3;"`,
`"  3 -> 4;"`, `"  3 -> 5;"`), no standalone line naming just node 3, and one
standalone line each naming node 4 and node 5. -/
theorem c8_dot_lines (iter : List Nat) (h : iter.Perm [1, 2, 3, 4, 5]) :
    buildDag dotScript = some dotDag ∧
    (linesOf (dotDag.dot iter)).count "  1 -> 3;" = 1 ∧
    (linesOf (dotDag.dot iter)).count "  2 -> 3;" = 1 ∧
    (linesOf (dotDag.dot iter)).count "  3 -> 4;" = 1 ∧
    (linesOf (dotDag.dot iter)).count "  3 -> 5;" = 1 ∧
    (linesOf (dotDag.dot iter)).count "  3;" = 0 ∧
    (linesOf (dotDag.dot iter)).count "  4;" = 1 ∧
    (linesOf (dotDag.dot iter)).count "  5;" = 1 :=
  ⟨by decide, c8aux iter (List.mem_permutations'.mpr h)⟩

theorem c8_dot_lines_witness :
    List.Perm [5, 3, 1, 2, 4] [1, 2, 3, 4, 5] ∧
    (buildDag dotScript = some dotDag ∧
      (linesOf (dotDag.dot [5, 3, 1, 2, 4])).count "  1 -> 3;" = 1 ∧
      (linesOf (dotDag.dot [5, 3, 1, 2, 4])).count "  2 -> 3;" = 1 ∧
      (linesOf (dotDag.dot [5, 3, 1, 2, 4])).count "  3 -> 4;" = 1 ∧
      (linesOf (dotDag.dot [5, 3, 1, 2, 4])).count "  3 -> 5;" = 1 ∧
      (linesOf (dotDag.dot [5, 3, 1, 2, 4])).count "  3;" = 0 ∧
      (linesOf (dotDag.dot [5, 3, 1, 2, 4])).count "  4;" = 1 ∧
      (linesOf (dotDag.dot [5, 3, 1, 2, 4])).count "  5;" = 1) := by
  have hp : List.Perm [(5 : Nat), 3, 1, 2, 4] [1, 2, 3, 4, 5] := by decide
  exact ⟨hp, c8_dot_lines [5, 3, 1, 2, 4] hp⟩

/-! ## Association-list facts for the node map -/

theorem containsKey_iff (l : List (Nat × Node)) (k : Nat) :
    containsKey l k = true ↔ k ∈ keysOf l := by
  simp only [containsKey, keysOf, List.any_eq_true, beq_iff_eq, List.mem_map]

theorem keysOf_pushChild (l : List (Nat × Node)) (k cid : Nat) :
    keysOf (pushChild l k cid) = keysOf l := by
  simp only [keysOf, pushChild, List.map_map]
  refine List.map_congr_left (fun e _ => ?_)
  simp only [Function.comp_apply]
  split <;> rfl

theorem mem_pushChild_iff (l : List (Nat × Node)) (k cid : Nat) (e : Nat × Node) :
    e ∈ pushChild l k cid ↔
      ∃ e0 ∈ l, e = (if e0.1 == k
        then (e0.1, { e0.2 with children := e0.2.children ++ [cid] }) else e0) := by
  simp only [pushChild, List.mem_map]
  constructor
  · rintro ⟨e0, he0, rfl⟩; exact ⟨e0, he0, rfl⟩
  · rintro ⟨e0, he0, rfl⟩; exact ⟨e0, he0, rfl⟩

theorem insertNode_fresh (l : List (Nat × Node)) (k : Nat) (v : Node)
    (h : k ∉ keysOf l) : insertNode l k v = l ++ [(k, v)] := by
  have hc : containsKey l k = false := by
    cases hc : containsKey l k with
    | false => rfl
    | true => exact absurd ((containsKey_iff l k).mp hc) h
  simp [insertNode, hc]

/-! ## The parents loop of add_node -/

theorem keysOf_append (l1 l2 : List (Nat × Node)) :
    keysOf (l1 ++ l2) = keysOf l1 ++ keysOf l2 := by
  simp [keysOf]

theorem append_cons_replicate (ch : List Nat) (id : Nat) (n : Nat) :
    ch ++ [id] ++ List.replicate n id = ch ++ List.replicate (n + 1) id := by
  simp [List.replicate_succ]

theorem range1_concat (n : Nat) : List.range' 1 (n + 1) = List.range' 1 n ++ [n + 1] := by
  rw [List.range'_1_concat]
  simp [Nat.add_comm]

theorem mem_range1_iff (m n : Nat) : m ∈ List.range' 1 n ↔ 1 ≤ m ∧ m ≤ n := by
  rw [List.mem_range'_1]
  omega

/-! ## The parents loop of add_node -/

theorem addParentsLoop_ok (id : Nat) (d : Dag) (ps : List Nat)
    (h : ∀ p ∈ ps, containsKey d.nodes p = true) :
    ∃ d', addParentsLoop id d ps = .ok d' id ∧
      d'.starts = d.starts ∧ d'.current_id = d.current_id ∧
      keysOf d'.nodes = keysOf d.nodes ∧
      ∀ e ∈ d'.nodes, ∃ e0 ∈ d.nodes, e.1 = e0.1 ∧ e.2.operation = e0.2.operation ∧
        e.2.children = e0.2.children ++ List.replicate (ps.count e.1) id := by
  induction ps generalizing d with
  | nil =>
    exact ⟨d, rfl, rfl, rfl, rfl, fun e he => ⟨e, he, rfl, rfl, by simp⟩⟩
  | cons p rest ih =>
    have hp : containsKey d.nodes p = true := h p (List.mem_cons_self p rest)
    have hrest : ∀ q ∈ rest,
        containsKey { d with nodes := pushChild d.nodes p id }.nodes q = true := by
      intro q hq
      have hcq := (containsKey_iff _ _).mp (h q (List.mem_cons_of_mem p hq))
      exact (containsKey_iff _ _).mpr (by simpa [keysOf_pushChild] using hcq)
    obtain ⟨d', hrun, hs, hc, hk, he⟩ := ih _ hrest
    refine ⟨d', by simpa [addParentsLoop, hp] using hrun, hs, hc,
      by simpa [keysOf_pushChild] using hk, ?_⟩
    intro e hed
    obtain ⟨e1, he1, h1, hop1, hch1⟩ := he e hed
    obtain ⟨e0, he0, h0⟩ := (mem_pushChild_iff _ _ _ _).mp he1
    by_cases hpk : e0.1 = p
    · have h1' : e.1 = p := by rw [h1, h0]; simp [hpk]
      have hch : e1.2.children = e0.2.children ++ [id] := by rw [h0]; simp [hpk]
      refine ⟨e0, he0, by rw [h1, h0]; simp [hpk], by rw [hop1, h0]; simp [hpk], ?_⟩
      rw [hch1, hch, h1', List.count_cons_self, append_cons_replicate]
    · have h1' : e.1 = e0.1 := by rw [h1, h0]; simp [hpk]
      have hne : ¬ p = e0.1 := fun hq => hpk hq.symm
      refine ⟨e0, he0, h1', by rw [hop1, h0]; simp [hpk], ?_⟩
      have hcnt : (p :: rest).count e.1 = rest.count e.1 := by
        rw [h1', List.count_cons]
        simp [hne, hpk]
      rw [hch1, hcnt, h0]
      simp [hpk]

theorem addParentsLoop_panicked (id : Nat) (d : Dag) (ps : List Nat)
    (h : ∃ p ∈ ps, containsKey d.nodes p = false) :
    ∃ d', addParentsLoop id d ps = .panicked d' ∧
      keysOf d'.nodes = keysOf d.nodes ∧
      d'.current_id = d.current_id ∧ d'.starts = d.starts := by
  induction ps generalizing d with
  | nil => simp at h
  | cons q rest ih =>
    cases hq : containsKey d.nodes q with
    | true =>
      obtain ⟨p, hp, hpc⟩ := h
      have hpr : p ∈ rest := by
        rcases List.mem_cons.mp hp with rfl | hr
        · rw [hq] at hpc; exact absurd hpc (by simp)
        · exact hr
      have h' : ∃ p ∈ rest,
          containsKey { d with nodes := pushChild d.nodes q id }.nodes p = false := by
        refine ⟨p, hpr, ?_⟩
        cases hc : containsKey (pushChild d.nodes q id) p with
        | false => rfl
        | true =>
          have hmem := (containsKey_iff _ _).mp hc
          rw [keysOf_pushChild] at hmem
          rw [(containsKey_iff _ _).mpr hmem] at hpc
          exact absurd hpc (by simp)
      obtain ⟨d', hrun, hk, hc, hs⟩ := ih _ h'
      exact ⟨d', by simpa [addParentsLoop, hq] using hrun,
        by simpa [keysOf_pushChild] using hk, hc, hs⟩
    | false =>
      exact ⟨d, by simp [addParentsLoop, hq], rfl, rfl, rfl⟩

/-! ## add_node on a well-formed dag -/

theorem add_node_ok (d : Dag) (op : Operation) (ps : List Nat)
    (hOK : DagOK d) (h : ∀ p ∈ ps, containsKey d.nodes p = true) :
    ∃ d', d.add_node op ps = .ok d' (d.current_id + 1) ∧ DagOK d' ∧
      d'.current_id = d.current_id + 1 ∧
      keysOf d'.nodes = keysOf d.nodes ++ [d.current_id + 1] ∧
      d'.starts = d.starts ++ (if ps.isEmpty then [d.current_id + 1] else []) ∧
      (∀ e ∈ d'.nodes, (e.1 = d.current_id + 1 ∧ e.2.children = []
          ∧ e.2.operation = op) ∨
        ∃ e0 ∈ d.nodes, e.1 = e0.1 ∧ e.2.operation = e0.2.operation ∧
          e.2.children = e0.2.children ++ List.replicate (ps.count e.1) (d.current_id + 1)) := by
  have hmemkeys : ∀ p, p ∈ keysOf d.nodes → p ≤ d.current_id := by
    intro p hp
    rw [hOK.keys_eq] at hp
    exact ((mem_range1_iff p d.current_id).mp hp).2
  have hid : (d.current_id + 1) ∉ keysOf d.nodes := by
    intro hmem
    have := hmemkeys (d.current_id + 1) hmem
    omega
  have hins : insertNode d.nodes (d.current_id + 1) (Node.new (d.current_id + 1) op) = d.nodes ++ [((d.current_id + 1), Node.new (d.current_id + 1) op)] :=
    insertNode_fresh _ _ _ hid
  have hkeys1 : keysOf (d.nodes ++ [((d.current_id + 1), Node.new (d.current_id + 1) op)]) = keysOf d.nodes ++ [(d.current_id + 1)] := by
    rw [keysOf_append]; rfl
  have hkeysrange : keysOf (d.nodes ++ [((d.current_id + 1), Node.new (d.current_id + 1) op)]) = List.range' 1 (d.current_id + 1) := by
    rw [hkeys1, hOK.keys_eq, range1_concat]
  have hnotin : ps.count (d.current_id + 1) = 0 := by
    rw [List.count_eq_zero]
    intro hmem
    have := hmemkeys (d.current_id + 1) ((containsKey_iff _ _).mp (h (d.current_id + 1) hmem))
    omega
  cases hps : ps with
  | nil =>
    refine ⟨{ nodes := d.nodes ++ [((d.current_id + 1), Node.new (d.current_id + 1) op)],
              starts := d.starts ++ [(d.current_id + 1)], current_id := (d.current_id + 1) }, ?_, ?_, rfl, hkeys1, by simp, ?_⟩
    · simp [Dag.add_node, Dag.next_id, hins]
    · constructor
      · exact hkeysrange
      · intro e he c hc
        rcases List.mem_append.mp he with he | he
        · exact hOK.child_lt e he c hc
        · rw [List.mem_singleton.mp he] at hc
          simp [Node.new] at hc
      · intro e he c hc
        rw [hkeys1]
        rcases List.mem_append.mp he with he | he
        · exact List.mem_append_left _ (hOK.child_mem e he c hc)
        · rw [List.mem_singleton.mp he] at hc
          simp [Node.new] at hc
      · intro s hs
        rw [hkeys1]
        rcases List.mem_append.mp hs with hs | hs
        · exact List.mem_append_left _ (hOK.starts_mem s hs)
        · exact List.mem_append_right _ hs
    · intro e he
      rcases List.mem_append.mp he with he | he
      · exact Or.inr ⟨e, he, rfl, rfl, by simp⟩
      · rw [List.mem_singleton.mp he]
        exact Or.inl ⟨rfl, rfl, rfl⟩
  | cons q qs =>
    rw [← hps]
    have hpsne : (ps.length == 0) = false := by
      rw [hps]; simp
    set d1 : Dag := { nodes := d.nodes ++ [((d.current_id + 1), Node.new (d.current_id + 1) op)],
                      starts := d.starts, current_id := (d.current_id + 1) } with hd1
    have hall : ∀ p ∈ ps, containsKey d1.nodes p = true := by
      intro p hp
      rw [containsKey_iff, hd1]
      rw [hkeys1]
      exact List.mem_append_left _ ((containsKey_iff _ _).mp (h p hp))
    obtain ⟨d', hrun, hst, hcur, hkey, hent⟩ := addParentsLoop_ok (d.current_id + 1) d1 ps hall
    have hkey' : keysOf d'.nodes = keysOf d.nodes ++ [(d.current_id + 1)] := by rw [hkey]; exact hkeys1
    have hent' : ∀ e ∈ d'.nodes, (e.1 = (d.current_id + 1) ∧ e.2.children = [] ∧ e.2.operation = op) ∨
        ∃ e0 ∈ d.nodes, e.1 = e0.1 ∧ e.2.operation = e0.2.operation ∧
          e.2.children = e0.2.children ++ List.replicate (ps.count e.1) (d.current_id + 1) := by
      intro e he
      obtain ⟨e1, he1, h1, hop1, hch1⟩ := hent e he
      rcases List.mem_append.mp he1 with he1 | he1
      · exact Or.inr ⟨e1, he1, h1, hop1, hch1⟩
      · rw [List.mem_singleton.mp he1] at h1 hop1 hch1
        refine Or.inl ⟨h1, ?_, hop1⟩
        rw [hch1, h1, hnotin]
        simp [Node.new]
    refine ⟨d', ?_, ?_, hcur, hkey', by simp [hst, hd1, hps], hent'⟩
    · rw [Dag.add_node]
      simp only [Dag.next_id, hpsne, Bool.false_eq_true, if_false]
      rw [hins]
      exact hrun
    · constructor
      · rw [hkey', hcur, hOK.keys_eq, range1_concat]
      · intro e he c hc
        rcases hent' e he with ⟨h1, h2, _⟩ | ⟨e0, he0, h1, _, h3⟩
        · rw [h2] at hc; simp at hc
        · rw [h3] at hc
          rcases List.mem_append.mp hc with hc | hc
          · rw [h1]; exact hOK.child_lt e0 he0 c hc
          · rw [List.eq_of_mem_replicate hc, h1]
            have : e0.1 ∈ keysOf d.nodes := List.mem_map.mpr ⟨e0, he0, rfl⟩
            have := hmemkeys e0.1 this
            omega
      · intro e he c hc
        rw [hkey']
        rcases hent' e he with ⟨h1, h2, _⟩ | ⟨e0, he0, h1, _, h3⟩
        · rw [h2] at hc; simp at hc
        · rw [h3] at hc
          rcases List.mem_append.mp hc with hc | hc
          · exact List.mem_append_left _ (hOK.child_mem e0 he0 c hc)
          · rw [List.eq_of_mem_replicate hc]
            exact List.mem_append_right _ (List.mem_singleton.mpr rfl)
      · intro s hs
        rw [hst] at hs
        rw [hkey']
        exact List.mem_append_left _ (hOK.starts_mem s hs)

/-! ## Building a dag from a good script -/

theorem dagOK_default : DagOK Dag.default := by
  constructor <;> simp [Dag.default, keysOf]

theorem buildFrom_good (script : List (Operation × List Nat)) (d : Dag)
    (hOK : DagOK d) (hg : goodFrom d script = true) :
    ∃ d', buildFrom d script = some d' ∧ DagOK d' ∧
      d'.current_id = d.current_id + script.length ∧
      d'.starts = d.starts ++ expectedStartsFrom d.current_id script := by
  induction script generalizing d with
  | nil => exact ⟨d, rfl, hOK, by simp, by simp [expectedStartsFrom]⟩
  | cons c rest ih =>
    obtain ⟨op, ps⟩ := c
    rw [goodFrom, Bool.and_eq_true] at hg
    obtain ⟨hall, hmatch⟩ := hg
    have hall' : ∀ p ∈ ps, containsKey d.nodes p = true := by
      rw [List.all_eq_true] at hall
      exact hall
    obtain ⟨d1, hadd, hOK1, hcur1, _, hstarts1, _⟩ := add_node_ok d op ps hOK hall'
    rw [hadd] at hmatch
    obtain ⟨d', hbuild, hOK', hcur', hstarts'⟩ := ih d1 hOK1 hmatch
    refine ⟨d', ?_, hOK', ?_, ?_⟩
    · rw [buildFrom, hadd]
      exact hbuild
    · rw [hcur', hcur1]
      simp only [List.length_cons]
      omega
    · rw [hstarts', hstarts1, hcur1, expectedStartsFrom]
      simp [List.append_assoc]

/-! ## Acyclicity from increasing edges -/

theorem lookupNode_mem (l : List (Nat × Node)) (k : Nat) (n : Node)
    (h : lookupNode l k = some n) : (k, n) ∈ l := by
  unfold lookupNode at h
  cases hf : l.find? (·.1 == k) with
  | none => rw [hf] at h; simp at h
  | some e =>
    obtain ⟨a, b⟩ := e
    rw [hf] at h
    have hm := List.mem_of_find?_eq_some hf
    have hp := List.find?_some hf
    simp at h hp
    subst hp
    subst h
    exact hm

theorem reaches_lt (d : Dag) (hlt : ∀ e ∈ d.nodes, ∀ c ∈ e.2.children, e.1 < c)
    {a b : Nat} (h : Reaches d a b) : a < b := by
  induction h with
  | single hE =>
    obtain ⟨node, hl, hc⟩ := hE
    exact hlt _ (lookupNode_mem _ _ _ hl) _ hc
  | tail _ hE ih =>
    obtain ⟨node, hl, hc⟩ := hE
    exact lt_trans ih (hlt _ (lookupNode_mem _ _ _ hl) _ hc)

/-! ## C5 (amended) -/

/-- C5 (amended): for every Dag built by a sequence of successful `add_node`
calls from the default dag **whose listed parent ids all exist at call time**
(`goodScript`), node ids are assigned monotonically starting at 1 (the key set
is exactly `1, …, n` after `n` calls), every edge goes from an existing node id
to the strictly larger newly created id, hence the edge relation is acyclic,
and a node's id is in `starts` if and only if it was added with an empty parent
list.  (The restriction is forced by the counterexample: a call listing the
about-to-be-assigned id as its own parent succeeds and creates a self-loop.) -/
theorem c5_amended_good_scripts (script : List (Operation × List Nat))
    (hg : goodScript script = true) :
    ∃ d, buildDag script = some d ∧
      keysOf d.nodes = List.range' 1 script.length ∧
      d.current_id = script.length ∧
      (∀ e ∈ d.nodes, ∀ c ∈ e.2.children, e.1 < c) ∧
      (∀ n, ¬ Reaches d n n) ∧
      d.starts = expectedStarts script := by
  obtain ⟨d, hb, hOK, hcur, hstarts⟩ := buildFrom_good script Dag.default dagOK_default hg
  have hcur' : d.current_id = script.length := by
    rw [hcur]; simp [Dag.default]
  refine ⟨d, hb, ?_, hcur', hOK.child_lt, ?_, ?_⟩
  · rw [hOK.keys_eq, hcur']
  · intro n hn
    exact absurd (reaches_lt d hOK.child_lt hn) (lt_irrefl n)
  · rw [hstarts]
    simp [Dag.default, expectedStarts]

theorem c5_amended_good_scripts_witness :
    goodScript diamondScript = true ∧
    (∃ d, buildDag diamondScript = some d ∧
      keysOf d.nodes = List.range' 1 diamondScript.length ∧
      d.current_id = diamondScript.length ∧
      (∀ e ∈ d.nodes, ∀ c ∈ e.2.children, e.1 < c) ∧
      (∀ n, ¬ Reaches d n n) ∧
      d.starts = expectedStarts diamondScript) :=
  ⟨by decide, c5_amended_good_scripts diamondScript (by decide)⟩

/-! ## C2 (amended) -/

theorem keysOf_insertNode (l : List (Nat × Node)) (k : Nat) (v : Node) :
    keysOf (insertNode l k v) = if containsKey l k then keysOf l else keysOf l ++ [k] := by
  unfold insertNode
  split
  · simp only [keysOf, List.map_map]
    refine List.map_congr_left (fun e _ => ?_)
    simp only [Function.comp_apply]
    split
    · next hek => exact ((beq_iff_eq).mp hek).symm
    · rfl
  · rw [keysOf_append]; rfl

theorem containsKey_insertNode (l : List (Nat × Node)) (k : Nat) (v : Node) (p : Nat) :
    containsKey (insertNode l k v) p = true ↔ containsKey l p = true ∨ p = k := by
  rw [containsKey_iff, keysOf_insertNode]
  split
  · next hc =>
    rw [containsKey_iff]
    constructor
    · exact Or.inl
    · rintro (hm | rfl)
      · exact hm
      · exact (containsKey_iff _ _).mp hc
  · rw [containsKey_iff]
    simp [List.mem_append]

/-- C2 (amended): if `add_node` is called with a parent id that is absent from
the graph and different from the id about to be assigned (`current_id + 1`),
it does not return a recoverable error: it panics, and the graph observable at
the panic is already mutated — the new node has been inserted (under the new
id) and the id counter advanced, so the graph is not left unchanged.
(The exclusion of `current_id + 1` is forced by the counterexample: that
parent id finds the just-inserted node itself and the call succeeds.) -/
theorem c2_amended_panics_after_mutation (d : Dag) (op : Operation) (ps : List Nat)
    (h : ∃ p ∈ ps, containsKey d.nodes p = false ∧ p ≠ d.current_id + 1) :
    ∃ d', d.add_node op ps = .panicked d' ∧
      containsKey d'.nodes (d.current_id + 1) = true ∧
      d'.current_id = d.current_id + 1 ∧ d' ≠ d := by
  obtain ⟨p, hp, hpc, hpne⟩ := h
  have hpsne : (ps.length == 0) = false := by
    cases ps with
    | nil => simp at hp
    | cons q qs => simp
  set d1 : Dag := { d with
    current_id := d.current_id + 1,
    nodes := insertNode d.nodes (d.current_id + 1)
      (Node.new (d.current_id + 1) op) } with hd1
  have hpc1 : containsKey d1.nodes p = false := by
    cases hc : containsKey d1.nodes p with
    | false => rfl
    | true =>
      rcases (containsKey_insertNode _ _ _ _).mp hc with hm | rfl
      · rw [hm] at hpc; exact absurd hpc (by simp)
      · exact absurd rfl hpne
  obtain ⟨d', hrun, hkey, hcur, _⟩ := addParentsLoop_panicked (d.current_id + 1) d1 ps ⟨p, hp, hpc1⟩
  have hid1 : containsKey d1.nodes (d.current_id + 1) = true :=
    (containsKey_insertNode _ _ _ _).mpr (Or.inr rfl)
  refine ⟨d', ?_, ?_, ?_, ?_⟩
  · rw [Dag.add_node]
    simp only [Dag.next_id, hpsne, Bool.false_eq_true, if_false]
    exact hrun
  · rw [containsKey_iff, hkey]
    exact (containsKey_iff _ _).mp hid1
  · rw [hcur]
  · intro heq
    have : d'.current_id = d.current_id := by rw [heq]
    rw [hcur] at this
    simp only [hd1] at this
    omega

theorem c2_amended_panics_after_mutation_witness :
    (∃ p ∈ [2], containsKey Dag.default.nodes p = false ∧ p ≠ Dag.default.current_id + 1) ∧
    (∃ d', Dag.default.add_node defaultOp [2] = .panicked d' ∧
      containsKey d'.nodes (Dag.default.current_id + 1) = true ∧
      d'.current_id = Dag.default.current_id + 1 ∧ d' ≠ Dag.default) :=
  ⟨by decide, c2_amended_panics_after_mutation Dag.default defaultOp [2] (by decide)⟩

/-! ## Association-list facts for the computation map -/

theorem anyKeyC_iff (m : CompMap) (k : Nat) :
    (m.any (·.1 == k)) = true ↔ k ∈ keysC m := by
  simp only [keysC, List.any_eq_true, beq_iff_eq, List.mem_map]

theorem keysC_addInput (m : CompMap) (k c : Nat) : keysC (addInput m k c) = keysC m := by
  simp only [keysC, addInput, List.map_map]
  refine List.map_congr_left (fun e _ => ?_)
  simp only [Function.comp_apply]
  split <;> rfl

theorem keysC_eraseComp (m : CompMap) (k : Nat) :
    keysC (eraseComp m k) = (keysC m).filter (fun x => !(x == k)) := by
  induction m with
  | nil => rfl
  | cons e rest ih =>
    by_cases hek : e.1 = k
    · simp [keysC, eraseComp, List.filter_cons, hek] at *
      exact ih
    · simp [keysC, eraseComp, List.filter_cons, hek] at *
      exact ih

theorem lookupComp_cons (e : Nat × ComputationNode) (rest : CompMap) (j : Nat) :
    lookupComp (e :: rest) j = if e.1 = j then some e.2 else lookupComp rest j := by
  by_cases h : e.1 = j
  · rw [lookupComp, List.find?_cons_of_pos _ (by simpa using h)]
    simp [h]
  · rw [lookupComp, List.find?_cons_of_neg _ (by simpa using h)]
    simp [h, lookupComp]

theorem lookupComp_addInput (m : CompMap) (k c j : Nat) :
    lookupComp (addInput m k c) j =
      (lookupComp m j).map (fun cn =>
        if j = k then { cn with receivers := cn.receivers ++ [c] } else cn) := by
  induction m with
  | nil => rfl
  | cons e rest ih =>
    by_cases hek : e.1 = k
    · by_cases hej : e.1 = j
      · have hjk : j = k := by rw [← hej, hek]
        simp [addInput, lookupComp_cons, hek, hej, hjk]
      · have hkj : ¬ k = j := fun hq => hej (by rw [hek, hq])
        simp only [addInput, List.map_cons] at ih ⊢
        simp only [hek, beq_self_eq_true, if_true]
        rw [lookupComp_cons, lookupComp_cons, if_neg hkj, if_neg hej]
        exact ih
    · by_cases hej : e.1 = j
      · have hjk : ¬ j = k := fun hq => hek (hej.trans hq)
        simp [addInput, lookupComp_cons, hek, hej, hjk]
      · simp only [addInput, List.map_cons] at ih ⊢
        rw [if_neg (by simpa using hek)]
        rw [lookupComp_cons, lookupComp_cons, if_neg hej, if_neg hej]
        exact ih

theorem lookupComp_eraseComp_ne (m : CompMap) (k j : Nat) (h : j ≠ k) :
    lookupComp (eraseComp m k) j = lookupComp m j := by
  induction m with
  | nil => rfl
  | cons e rest ih =>
    by_cases hek : e.1 = k
    · have hne : ¬ e.1 = j := fun hq => h (by rw [← hq, hek])
      simp only [eraseComp, List.filter_cons] at ih ⊢
      simp only [hek, beq_self_eq_true, Bool.not_true]
      rw [if_neg (by simp), lookupComp_cons]
      simp only [hne, if_neg]
      exact ih
    · simp only [eraseComp, List.filter_cons] at ih ⊢
      rw [if_pos (by simp [hek])]
      rw [lookupComp_cons, lookupComp_cons]
      by_cases hej : e.1 = j
      · simp [hej]
      · simp only [hej, if_neg]
        exact ih

theorem find?_eraseComp_self (m : CompMap) (k : Nat) :
    (eraseComp m k).find? (·.1 == k) = none := by
  rw [List.find?_eq_none]
  intro e he
  simp only [eraseComp, List.mem_filter] at he
  simpa using he.2

theorem lookupComp_append (m1 m2 : CompMap) (j : Nat) :
    lookupComp (m1 ++ m2) j =
      match lookupComp m1 j with
      | some v => some v
      | none => lookupComp m2 j := by
  induction m1 with
  | nil => simp [lookupComp]
  | cons e rest ih =>
    rw [List.cons_append, lookupComp_cons, lookupComp_cons]
    by_cases hej : e.1 = j
    · simp [hej]
    · simp only [hej, if_neg]
      exact ih

theorem lookupComp_erase_append (m : CompMap) (k : Nat) (v : ComputationNode) (j : Nat) :
    lookupComp (eraseComp m k ++ [(k, v)]) j =
      if j = k then some v else lookupComp m j := by
  by_cases hjk : j = k
  · subst hjk
    have h1 : lookupComp (eraseComp m j) j = none := by
      rw [lookupComp, find?_eraseComp_self]
      rfl
    rw [lookupComp_append, h1]
    simp [lookupComp_cons]
  · rw [lookupComp_append, lookupComp_eraseComp_ne m k j hjk]
    cases hl : lookupComp m j with
    | none =>
      have hkj : ¬ k = j := fun hq => hjk hq.symm
      simp [hjk, lookupComp_cons, hkj, lookupComp]
    | some cn => simp [hjk]

theorem insertComp_of_erased (m : CompMap) (k : Nat) (v : ComputationNode) :
    insertComp (eraseComp m k) k v = eraseComp m k ++ [(k, v)] := by
  rw [insertComp]
  have hfalse : ((eraseComp m k).any (·.1 == k)) = false := by
    cases hc : (eraseComp m k).any (·.1 == k) with
    | false => rfl
    | true =>
      rw [List.any_eq_true] at hc
      obtain ⟨e, he, hek⟩ := hc
      simp only [eraseComp, List.mem_filter] at he
      rw [hek] at he
      simpa using he.2
  rw [hfalse]
  simp

theorem lookupComp_isSome_of_mem (m : CompMap) (k : Nat) (h : k ∈ keysC m) :
    ∃ cn, lookupComp m k = some cn := by
  obtain ⟨e, he, hek⟩ : ∃ e ∈ m, (e.1 == k) = true := by
    simpa only [List.any_eq_true] using (anyKeyC_iff m k).mpr h
  cases hf : m.find? (·.1 == k) with
  | none =>
    rw [List.find?_eq_none] at hf
    exact absurd hek (by simpa using hf e he)
  | some e' => exact ⟨e'.2, by rw [lookupComp, hf]; rfl⟩

/-! ## The inner wiring loop -/

theorem wireChildren_spec (cs : List Nat) (parent : ComputationNode) (m : CompMap) (ctr : Nat)
    (h : ∀ c ∈ cs, c ∈ keysC m) :
    ∃ m', wireChildren parent m ctr cs =
        some ({ parent with senders := parent.senders ++ List.range' ctr cs.length },
          m', ctr + cs.length) ∧
      keysC m' = keysC m ∧
      ∀ j, lookupComp m' j = (lookupComp m j).map (fun cn =>
        { cn with receivers := cn.receivers ++ edgeChans ctr cs j }) := by
  induction cs generalizing parent m ctr with
  | nil =>
    refine ⟨m, by simp [wireChildren], rfl, ?_⟩
    intro j
    cases hl : lookupComp m j <;> simp [edgeChans]
  | cons c rest ih =>
    have hc : (m.any (·.1 == c)) = true := (anyKeyC_iff m c).mpr (h c (List.mem_cons_self c rest))
    have hrest : ∀ x ∈ rest, x ∈ keysC (addInput m c ctr) := by
      intro x hx
      rw [keysC_addInput]
      exact h x (List.mem_cons_of_mem c hx)
    obtain ⟨m', hrun, hk, hl⟩ :=
      ih { parent with senders := parent.senders ++ [ctr] } (addInput m c ctr) (ctr + 1) hrest
    refine ⟨m', ?_, by rw [hk, keysC_addInput], ?_⟩
    · rw [wireChildren, hc]
      simp only [if_true]
      rw [hrun]
      simp [List.range'_succ, List.append_assoc, Nat.add_assoc, Nat.add_comm 1 rest.length]
    · intro j
      rw [hl j, lookupComp_addInput]
      cases hlm : lookupComp m j with
      | none => rfl
      | some cn =>
        by_cases hjc : j = c
        · simp [hjc, edgeChans, List.append_assoc]
        · have hcj : ¬ c = j := fun hq => hjc hq.symm
          simp [hjc, hcj, edgeChans]

/-! ## The node-creation loop -/

theorem createComps_spec (iter : List Nat) (d : Dag)
    (hdag : ∀ i ∈ iter, ∃ node, lookupNode d.nodes i = some node) :
    ∃ m0, createComps d iter = some m0 ∧ keysC m0 = iter ∧
      (∀ j, j ∉ iter → lookupComp m0 j = none) ∧
      (∀ j node, lookupNode d.nodes j = some node → j ∈ iter →
        lookupComp m0 j = some (ComputationNode.new j node.operation)) := by
  induction iter with
  | nil =>
    exact ⟨[], rfl, rfl, fun j _ => rfl, fun j node _ hmem => absurd hmem (List.not_mem_nil j)⟩
  | cons i rest ih =>
    obtain ⟨node, hnode⟩ := hdag i (List.mem_cons_self i rest)
    obtain ⟨m0, hm0, hk, hnone, hsome⟩ := ih (fun x hx => hdag x (List.mem_cons_of_mem i hx))
    refine ⟨(i, ComputationNode.new i node.operation) :: m0, ?_, ?_, ?_, ?_⟩
    · rw [createComps, hnode, hm0]
      rfl
    · rw [show keysC ((i, ComputationNode.new i node.operation) :: m0) = i :: keysC m0 from rfl,
        hk]
    · intro j hj
      rw [List.mem_cons, not_or] at hj
      rw [lookupComp_cons]
      rw [if_neg (fun hq => hj.1 hq.symm)]
      exact hnone j hj.2
    · intro j node' hnode' hmem
      rw [lookupComp_cons]
      by_cases hij : i = j
      · subst hij
        rw [hnode] at hnode'
        rw [if_pos rfl]
        simp only [Option.some_inj] at hnode' ⊢
        rw [← hnode']
      · rw [if_neg hij]
        rcases List.mem_cons.mp hmem with rfl | hmem'
        · exact absurd rfl hij
        · exact hsome j node' hnode' hmem'

/-! ## The start-wiring loop -/

theorem wireStarts_spec (ss : List Nat) (m : CompMap) (ctr : Nat) (isends : List Nat)
    (hmem : ∀ s ∈ ss, s ∈ keysC m) :
    ∃ m', wireStarts m ctr isends ss =
        some (m', ctr + ss.length, isends ++ List.range' ctr ss.length) ∧
      keysC m' = keysC m ∧
      ∀ j, lookupComp m' j = (lookupComp m j).map (fun cn =>
        { cn with receivers := cn.receivers ++ startChans ctr ss j }) := by
  induction ss generalizing m ctr isends with
  | nil =>
    refine ⟨m, by simp [wireStarts], rfl, ?_⟩
    intro j
    simp only [startChans]
    cases lookupComp m j <;> simp
  | cons s rest ih =>
    have hs : (m.any (·.1 == s)) = true :=
      (anyKeyC_iff m s).mpr (hmem s (List.mem_cons_self s rest))
    have hrest : ∀ x ∈ rest, x ∈ keysC (addInput m s ctr) := by
      intro x hx
      rw [keysC_addInput]
      exact hmem x (List.mem_cons_of_mem s hx)
    obtain ⟨m', hrun, hk, hl⟩ := ih (addInput m s ctr) (ctr + 1) (isends ++ [ctr]) hrest
    refine ⟨m', ?_, by rw [hk, keysC_addInput], ?_⟩
    · rw [wireStarts, hs]
      simp only [if_true]
      rw [hrun]
      simp [List.range'_succ, List.append_assoc, Nat.add_assoc, Nat.add_comm 1 rest.length]
    · intro j
      rw [hl j, lookupComp_addInput]
      cases hlm : lookupComp m j with
      | none => rfl
      | some cn =>
        by_cases hjs : j = s
        · simp [hjs, startChans, List.append_assoc]
        · have hsj : ¬ s = j := fun hq => hjs hq.symm
          simp [hjs, hsj, startChans]

/-! ## The outer wiring loop -/

theorem insertComp_not_mem (m : CompMap) (k : Nat) (v : ComputationNode)
    (h : k ∉ keysC m) : insertComp m k v = m ++ [(k, v)] := by
  rw [insertComp]
  have hfalse : (m.any (·.1 == k)) = false := by
    cases hc : m.any (·.1 == k) with
    | false => rfl
    | true => exact absurd ((anyKeyC_iff m k).mp hc) h
  rw [hfalse]
  simp

theorem lookupComp_append_single (m : CompMap) (k : Nat) (v : ComputationNode)
    (h : lookupComp m k = none) (j : Nat) :
    lookupComp (m ++ [(k, v)]) j = if j = k then some v else lookupComp m j := by
  rw [lookupComp_append]
  by_cases hjk : j = k
  · subst hjk
    rw [h]
    simp [lookupComp_cons]
  · cases hl : lookupComp m j with
    | none =>
      have hkj : ¬ k = j := fun hq => hjk hq.symm
      simp [hjk, lookupComp_cons, hkj, lookupComp]
    | some cn => simp [hjk]

theorem edgeChans_eq_nil_of_not_mem (cs : List Nat) (ctr t : Nat) (h : t ∉ cs) :
    edgeChans ctr cs t = [] := by
  induction cs generalizing ctr with
  | nil => rfl
  | cons c rest ih =>
    rw [List.mem_cons, not_or] at h
    rw [edgeChans, if_neg (fun hq => h.1 hq.symm), ih _ h.2]
    rfl

theorem mem_keysC_filterne (m : CompMap) (i j : Nat) :
    j ∈ (keysC m).filter (fun x => !(x == i)) ↔ j ∈ keysC m ∧ j ≠ i := by
  rw [List.mem_filter]
  simp

theorem wireNodes_spec (iter : List Nat) (d : Dag) (m : CompMap) (ctr : Nat) (rres : List Nat)
    (hnodup : iter.Nodup)
    (hknodup : (keysC m).Nodup)
    (hmem : ∀ i ∈ iter, i ∈ keysC m)
    (hdag : ∀ i ∈ iter, ∃ node, lookupNode d.nodes i = some node)
    (hchild : ∀ i ∈ iter, ∀ c ∈ childrenOfD d i, c ∈ keysC m ∧ c ≠ i) :
    ∃ m', wireNodes d m ctr rres iter =
        some (m', ctr + (iter.map (outDegree d)).sum, rres ++ termChans d ctr iter) ∧
      (∀ j, j ∈ keysC m' ↔ j ∈ keysC m) ∧ (keysC m').Nodup ∧
      ∀ j, lookupComp m' j = (lookupComp m j).map (fun cn =>
        { cn with receivers := cn.receivers ++ inChans d ctr iter j,
                  senders := cn.senders ++ senderBlockAt d ctr iter j }) := by
  induction iter generalizing m ctr rres with
  | nil =>
    refine ⟨m, by simp [wireNodes, termChans], fun j => Iff.rfl, hknodup, ?_⟩
    intro j
    simp only [inChans, senderBlockAt]
    cases lookupComp m j <;> simp
  | cons i rest ih =>
    have hki : i ∈ keysC m := hmem i (List.mem_cons_self i rest)
    obtain ⟨parent, hparent⟩ := lookupComp_isSome_of_mem m i hki
    obtain ⟨node, hnode⟩ := hdag i (List.mem_cons_self i rest)
    have hchildren : childrenOfD d i = node.children := by
      rw [childrenOfD, hnode]
    have hkeyserase : keysC (eraseComp m i) = (keysC m).filter (fun x => !(x == i)) :=
      keysC_eraseComp m i
    have hinotin : i ∉ keysC (eraseComp m i) := by
      rw [hkeyserase]
      intro hmem'
      exact absurd ((mem_keysC_filterne m i i).mp hmem').2 (by simp)
    -- facts about the reinserted map, common to both branches
    have hmemiff : ∀ (m2 : CompMap), keysC m2 = keysC (eraseComp m i) ++ [i] →
        ∀ j, j ∈ keysC m2 ↔ j ∈ keysC m := by
      intro m2 hkm2 j
      rw [hkm2, List.mem_append, hkeyserase, List.mem_singleton, mem_keysC_filterne]
      constructor
      · rintro (⟨hj, _⟩ | rfl)
        · exact hj
        · exact hki
      · intro hj
        by_cases hji : j = i
        · exact Or.inr hji
        · exact Or.inl ⟨hj, hji⟩
    have hnodup2 : ∀ (m2 : CompMap), keysC m2 = keysC (eraseComp m i) ++ [i] →
        (keysC m2).Nodup := by
      intro m2 hkm2
      rw [hkm2, hkeyserase]
      refine List.Nodup.append (hknodup.filter _) (List.nodup_singleton i) ?_
      intro a ha ha1
      rw [List.mem_singleton] at ha1
      rw [ha1] at ha
      exact absurd ((mem_keysC_filterne m i i).mp ha).2 (by simp)
    by_cases hemp : node.children.isEmpty = true
    · -- terminal node: one result channel
      have hchnil : node.children = [] := List.isEmpty_iff.mp hemp
      have hdeg : outDegree d i = 1 := by
        rw [outDegree, hchildren, hchnil]
        rfl
      set P : ComputationNode := { parent with senders := parent.senders ++ [ctr] } with hP
      have hm2 : insertComp (eraseComp m i) i P = eraseComp m i ++ [(i, P)] :=
        insertComp_of_erased m i P
      have hkm2 : keysC (eraseComp m i ++ [(i, P)]) = keysC (eraseComp m i) ++ [i] := by
        simp [keysC]
      have hlook2 : ∀ j, lookupComp (eraseComp m i ++ [(i, P)]) j =
          if j = i then some P else lookupComp m j := lookupComp_erase_append m i P
      have hmem2 : ∀ x ∈ rest, x ∈ keysC (eraseComp m i ++ [(i, P)]) := by
        intro x hx
        rw [hmemiff _ hkm2]
        exact hmem x (List.mem_cons_of_mem i hx)
      have hchild2 : ∀ x ∈ rest, ∀ c ∈ childrenOfD d x,
          c ∈ keysC (eraseComp m i ++ [(i, P)]) ∧ c ≠ x := by
        intro x hx c hc
        obtain ⟨h1, h2⟩ := hchild x (List.mem_cons_of_mem i hx) c hc
        exact ⟨(hmemiff _ hkm2 c).mpr h1, h2⟩
      obtain ⟨m', hrun, hmem', hnodup', hlook'⟩ :=
        ih (eraseComp m i ++ [(i, P)]) (ctr + 1) (rres ++ [ctr])
          (List.Nodup.of_cons hnodup) (hnodup2 _ hkm2) hmem2
          (fun x hx => hdag x (List.mem_cons_of_mem i hx)) hchild2
      refine ⟨m', ?_, fun j => (hmem' j).trans (hmemiff _ hkm2 j), hnodup', ?_⟩
      · rw [wireNodes]
        simp only [hparent, hnode, hchnil, List.isEmpty_nil, if_true, Option.bind_eq_bind, Option.some_bind]
        rw [← hP, hm2, hrun]
        rw [List.map_cons, List.sum_cons, hdeg, termChans, hchildren, hchnil]
        simp [List.append_assoc, Nat.add_assoc, hdeg]
      · intro j
        rw [hlook' j, hlook2 j]
        by_cases hji : j = i
        · rw [if_pos hji, hji, hparent]
          simp only [hP]
          simp [inChans, senderBlockAt, edgeChans, hchildren, hchnil, hdeg, List.append_assoc]
        · rw [if_neg hji]
          cases hlm : lookupComp m j with
          | none => rfl
          | some cn =>
            have hij : ¬ i = j := fun hq => hji hq.symm
            simp [inChans, senderBlockAt, edgeChans, hchildren, hchnil, hdeg, hij]
    · -- non-terminal node: one channel per child
      have hempf : node.children.isEmpty = false := by
        cases hval : node.children.isEmpty with
        | false => rfl
        | true => exact absurd hval hemp
      have hdeg : outDegree d i = node.children.length := by
        rw [outDegree, hchildren, hempf]
        rfl
      have hchmem : ∀ c ∈ node.children, c ∈ keysC (eraseComp m i) := by
        intro c hc
        obtain ⟨h1, h2⟩ := hchild i (List.mem_cons_self i rest) c (hchildren ▸ hc)
        rw [hkeyserase, mem_keysC_filterne]
        exact ⟨h1, h2⟩
      obtain ⟨m2, hwc, hkm2', hlm2⟩ :=
        wireChildren_spec node.children parent (eraseComp m i) ctr hchmem
      set P : ComputationNode :=
        { parent with senders := parent.senders ++ List.range' ctr node.children.length } with hP
      have hlooknone : lookupComp m2 i = none := by
        rw [hlm2 i]
        have herase : lookupComp (eraseComp m i) i = none := by
          rw [lookupComp, find?_eraseComp_self]
          rfl
        rw [herase]
        rfl
      have hmi : i ∉ keysC m2 := by
        intro hmem'
        obtain ⟨cn, hcn⟩ := lookupComp_isSome_of_mem m2 i hmem'
        rw [hlooknone] at hcn
        exact Option.noConfusion hcn
      have hm3 : insertComp m2 i P = m2 ++ [(i, P)] := insertComp_not_mem m2 i P hmi
      have hkm3 : keysC (m2 ++ [(i, P)]) = keysC (eraseComp m i) ++ [i] := by
        have : keysC (m2 ++ [(i, P)]) = keysC m2 ++ [i] := by simp [keysC]
        rw [this, hkm2']
      have hlook3 : ∀ j, lookupComp (m2 ++ [(i, P)]) j =
          if j = i then some P else
            (lookupComp m j).map (fun cn =>
              { cn with receivers := cn.receivers ++ edgeChans ctr node.children j }) := by
        intro j
        rw [lookupComp_append_single m2 i P hlooknone j]
        by_cases hji : j = i
        · simp [hji]
        · rw [if_neg hji, if_neg hji, hlm2 j, lookupComp_eraseComp_ne m i j hji]
      have hmem2 : ∀ x ∈ rest, x ∈ keysC (m2 ++ [(i, P)]) := by
        intro x hx
        rw [hmemiff _ hkm3]
        exact hmem x (List.mem_cons_of_mem i hx)
      have hchild2 : ∀ x ∈ rest, ∀ c ∈ childrenOfD d x,
          c ∈ keysC (m2 ++ [(i, P)]) ∧ c ≠ x := by
        intro x hx c hc
        obtain ⟨h1, h2⟩ := hchild x (List.mem_cons_of_mem i hx) c hc
        exact ⟨(hmemiff _ hkm3 c).mpr h1, h2⟩
      obtain ⟨m', hrun, hmem', hnodup', hlook'⟩ :=
        ih (m2 ++ [(i, P)]) (ctr + node.children.length) rres
          (List.Nodup.of_cons hnodup) (hnodup2 _ hkm3) hmem2
          (fun x hx => hdag x (List.mem_cons_of_mem i hx)) hchild2
      refine ⟨m', ?_, fun j => (hmem' j).trans (hmemiff _ hkm3 j), hnodup', ?_⟩
      · rw [wireNodes]
        simp only [hparent, hnode, hempf, Bool.false_eq_true, if_false, Option.bind_eq_bind, Option.some_bind, hwc]
        rw [hm3, hrun]
        rw [List.map_cons, List.sum_cons, hdeg, termChans, hchildren, hempf]
        simp [Nat.add_assoc, hdeg]
      · intro j
        rw [hlook' j, hlook3 j]
        by_cases hji : j = i
        · rw [if_pos hji, hji, hparent]
          have hnotmem : i ∉ node.children := by
            intro hc
            exact absurd rfl (hchild i (List.mem_cons_self i rest) i (hchildren ▸ hc)).2
          simp only [hP]
          rw [inChans, senderBlockAt, hchildren, hdeg]
          rw [edgeChans_eq_nil_of_not_mem _ _ _ hnotmem]
          simp [hempf, List.append_assoc]
        · rw [if_neg hji]
          cases hlm : lookupComp m j with
          | none => rfl
          | some cn =>
            have hij : ¬ i = j := fun hq => hji hq.symm
            rw [inChans, senderBlockAt, hchildren, hdeg]
            simp [hij, List.append_assoc]

/-! ## Full characterization of Computation::new -/

theorem lookupNode_isSome_of_mem (l : List (Nat × Node)) (k : Nat) (h : k ∈ keysOf l) :
    ∃ n, lookupNode l k = some n := by
  obtain ⟨e, he, hek⟩ : ∃ e ∈ l, (e.1 == k) = true := by
    simp only [keysOf, List.mem_map] at h
    obtain ⟨e, he, hek⟩ := h
    exact ⟨e, he, by simp [hek]⟩
  cases hf : l.find? (·.1 == k) with
  | none =>
    rw [List.find?_eq_none] at hf
    exact absurd hek (by simpa using hf e he)
  | some e' => exact ⟨e'.2, by rw [lookupNode, hf]; rfl⟩

theorem nodup_keys_of_dagOK (d : Dag) (hOK : DagOK d) : (keysOf d.nodes).Nodup := by
  rw [hOK.keys_eq]
  exact List.nodup_range' 1 d.current_id

theorem childrenOfD_eq (d : Dag) (i : Nat) (node : Node)
    (h : lookupNode d.nodes i = some node) : childrenOfD d i = node.children := by
  rw [childrenOfD, h]

theorem new_spec (d : Dag) (iter : List Nat)
    (hOK : DagOK d) (hperm : iter.Perm (keysOf d.nodes)) :
    ∃ comp, Computation.new d iter = some comp ∧
      comp.result_receivers = termChans d 0 iter ∧
      comp.initial_senders = List.range' (totalOut d iter) d.starts.length ∧
      (∀ j, j ∈ keysC comp.computations ↔ j ∈ iter) ∧
      (keysC comp.computations).Nodup ∧
      (∀ j, j ∉ iter → lookupComp comp.computations j = none) ∧
      (∀ j node, lookupNode d.nodes j = some node → j ∈ iter →
        lookupComp comp.computations j = some
          { id := j, operation := node.operation,
            receivers := inChans d 0 iter j ++ startChans (totalOut d iter) d.starts j,
            senders := senderBlockAt d 0 iter j }) := by
  have hknodup : (keysOf d.nodes).Nodup := nodup_keys_of_dagOK d hOK
  have hiternodup : iter.Nodup := hperm.nodup_iff.mpr hknodup
  have hmemiter : ∀ i, i ∈ iter ↔ i ∈ keysOf d.nodes := fun i => hperm.mem_iff
  have hdag : ∀ i ∈ iter, ∃ node, lookupNode d.nodes i = some node := by
    intro i hi
    exact lookupNode_isSome_of_mem d.nodes i ((hmemiter i).mp hi)
  have hchild0 : ∀ i ∈ iter, ∀ c ∈ childrenOfD d i, c ∈ iter ∧ c ≠ i := by
    intro i hi c hc
    obtain ⟨node, hnode⟩ := hdag i hi
    rw [childrenOfD_eq d i node hnode] at hc
    have hent : (i, node) ∈ d.nodes := lookupNode_mem d.nodes i node hnode
    have hcm : c ∈ keysOf d.nodes := hOK.child_mem (i, node) hent c hc
    have hlt : i < c := hOK.child_lt (i, node) hent c hc
    exact ⟨(hmemiter c).mpr hcm, fun hq => absurd (hq ▸ hlt) (lt_irrefl i)⟩
  obtain ⟨m0, hm0run, hkm0, hm0none, hm0some⟩ := createComps_spec iter d hdag
  have hm0nodup : (keysC m0).Nodup := by rw [hkm0]; exact hiternodup
  have hm0mem : ∀ i ∈ iter, i ∈ keysC m0 := by
    intro i hi
    rw [hkm0]
    exact hi
  have hm0child : ∀ i ∈ iter, ∀ c ∈ childrenOfD d i, c ∈ keysC m0 ∧ c ≠ i := by
    intro i hi c hc
    obtain ⟨h1, h2⟩ := hchild0 i hi c hc
    rw [hkm0]
    exact ⟨h1, h2⟩
  obtain ⟨m1, h1run, h1mem, h1nodup, h1look⟩ :=
    wireNodes_spec iter d m0 0 [] hiternodup hm0nodup hm0mem hdag hm0child
  have hstartsmem : ∀ s ∈ d.starts, s ∈ keysC m1 := by
    intro s hs
    rw [h1mem s, hkm0]
    exact (hmemiter s).mpr (hOK.starts_mem s hs)
  obtain ⟨m2, h2run, h2keys, h2look⟩ :=
    wireStarts_spec d.starts m1 (0 + (iter.map (outDegree d)).sum) [] hstartsmem
  have htotal : 0 + (iter.map (outDegree d)).sum = totalOut d iter := Nat.zero_add _
  refine ⟨{ result_receivers := [] ++ termChans d 0 iter,
            initial_senders := [] ++ List.range' (0 + (iter.map (outDegree d)).sum) d.starts.length,
            computations := m2 }, ?_, by simp, by simp [totalOut], ?_, ?_, ?_, ?_⟩
  · rw [Computation.new, hm0run]
    simp only [Option.bind_eq_bind, Option.some_bind]
    rw [h1run]
    simp only [Option.bind_eq_bind, Option.some_bind]
    rw [h2run]
    simp only [Option.bind_eq_bind, Option.some_bind]
  · intro j
    show j ∈ keysC m2 ↔ j ∈ iter
    rw [h2keys, h1mem j, hkm0]
  · show (keysC m2).Nodup
    rw [h2keys]
    exact h1nodup
  · intro j hj
    show lookupComp m2 j = none
    rw [h2look j, h1look j, hm0none j hj]
    rfl
  · intro j node hnode hj
    show lookupComp m2 j = some _
    rw [h2look j, h1look j, hm0some j node hnode hj]
    simp only [Option.map_some']
    rw [htotal]
    simp [ComputationNode.new]

/-! ## C10: compilation never panics on well-formed dags -/

/-- C10: for every Dag built from the default Dag by successful `add_node`
calls whose listed parent ids all exist at call time, `Computation::new`
never panics: whatever iteration order the nodes `HashMap` presents, every
map lookup (`unwrap`) in the three wiring loops succeeds, so compilation
returns a computation. -/
theorem c10_new_never_panics (script : List (Operation × List Nat))
    (hg : goodScript script = true) (d : Dag) (hb : buildDag script = some d)
    (iter : List Nat) (hperm : iter.Perm (keysOf d.nodes)) :
    (Computation.new d iter).isSome = true := by
  obtain ⟨d', hb', hOK, _, _⟩ := buildFrom_good script Dag.default dagOK_default hg
  rw [buildDag, hb'] at hb
  have hdd : d' = d := by
    simpa using hb
  obtain ⟨comp, hnew, _⟩ := new_spec d iter (hdd ▸ hOK) hperm
  rw [hnew]
  rfl

theorem c10_new_never_panics_witness :
    goodScript diamondScript = true ∧
    buildDag diamondScript = some diamondDag ∧
    List.Perm [6, 5, 4, 3, 2, 1] (keysOf diamondDag.nodes) ∧
    (Computation.new diamondDag [6, 5, 4, 3, 2, 1]).isSome = true := by
  refine ⟨by decide, by decide, by decide, ?_⟩
  exact c10_new_never_panics diamondScript (by decide) diamondDag (by decide)
    [6, 5, 4, 3, 2, 1] (by decide)

/-! ## Channel-layout arithmetic -/

theorem totalOut_cons (d : Dag) (p : Nat) (l : List Nat) :
    totalOut d (p :: l) = outDegree d p + totalOut d l := by
  simp [totalOut]

theorem totalOut_append (d : Dag) (l1 l2 : List Nat) :
    totalOut d (l1 ++ l2) = totalOut d l1 + totalOut d l2 := by
  simp [totalOut]

theorem totalOut_single (d : Dag) (p : Nat) : totalOut d [p] = outDegree d p := by
  simp [totalOut]

theorem outDegree_pos (d : Dag) (p : Nat) : 0 < outDegree d p := by
  rw [outDegree]
  split
  · exact Nat.zero_lt_one
  · next h =>
    cases hc : childrenOfD d p with
    | nil => rw [hc] at h; simp at h
    | cons a l => simp [hc]

theorem edgeChans_length (ctr : Nat) (cs : List Nat) (t : Nat) :
    (edgeChans ctr cs t).length = cs.count t := by
  induction cs generalizing ctr with
  | nil => rfl
  | cons c rest ih =>
    rw [edgeChans, List.count_cons, List.length_append, ih (ctr + 1)]
    by_cases hct : c = t
    · simp [hct, Nat.add_comm]
    · have htc : ¬ (t = c) := fun hq => hct hq.symm
      simp [hct, htc]

theorem edgeChans_mem_bounds (ctr : Nat) (cs : List Nat) (t c : Nat)
    (h : c ∈ edgeChans ctr cs t) : ctr ≤ c ∧ c < ctr + cs.length := by
  induction cs generalizing ctr with
  | nil => simp [edgeChans] at h
  | cons x rest ih =>
    rw [edgeChans, List.mem_append] at h
    rcases h with h | h
    · split at h
      · rw [List.mem_singleton] at h
        subst h
        simp
      · simp at h
    · have := ih (ctr + 1) h
      constructor <;> [omega; (simp only [List.length_cons]; omega)]

theorem edgeChans_get_mem (ctr : Nat) (cs : List Nat) (t : Nat) (idx : Nat)
    (hidx : idx < cs.length) :
    ctr + idx ∈ edgeChans ctr cs t ↔ cs.get ⟨idx, hidx⟩ = t := by
  induction cs generalizing ctr idx with
  | nil => simp at hidx
  | cons x rest ih =>
    rw [edgeChans, List.mem_append]
    cases idx with
    | zero =>
      simp only [List.get]
      constructor
      · rintro (h | h)
        · split at h
          · next hxt => exact hxt
          · simp at h
        · have := (edgeChans_mem_bounds (ctr + 1) rest t _ h).1
          omega
      · intro hxt
        left
        rw [if_pos hxt]
        simp
    | succ n =>
      have hn : n < rest.length := by simpa using hidx
      constructor
      · rintro (h | h)
        · split at h
          · rw [List.mem_singleton] at h
            omega
          · simp at h
        · have h' : (ctr + 1) + n ∈ edgeChans (ctr + 1) rest t := by
            have : ctr + (n + 1) = (ctr + 1) + n := by omega
            rwa [this] at h
          exact (ih (ctr + 1) n hn).mp h'
      · intro hget
        right
        have h' := (ih (ctr + 1) n hn).mpr hget
        have : ctr + (n + 1) = (ctr + 1) + n := by omega
        rwa [this]

theorem startChans_length (ctr : Nat) (ss : List Nat) (j : Nat) :
    (startChans ctr ss j).length = ss.count j := by
  induction ss generalizing ctr with
  | nil => rfl
  | cons s rest ih =>
    rw [startChans, List.count_cons, List.length_append, ih (ctr + 1)]
    by_cases hsj : s = j
    · simp [hsj, Nat.add_comm]
    · have hjs : ¬ (j = s) := fun hq => hsj hq.symm
      simp [hsj, hjs]

theorem startChans_mem_bounds (ctr : Nat) (ss : List Nat) (j c : Nat)
    (h : c ∈ startChans ctr ss j) : ctr ≤ c ∧ c < ctr + ss.length := by
  induction ss generalizing ctr with
  | nil => simp [startChans] at h
  | cons s rest ih =>
    rw [startChans, List.mem_append] at h
    rcases h with h | h
    · split at h
      · rw [List.mem_singleton] at h
        subst h
        simp
      · simp at h
    · have := ih (ctr + 1) h
      constructor <;> [omega; (simp only [List.length_cons]; omega)]

theorem senderBlockAt_not_mem (d : Dag) (ctr : Nat) (iter : List Nat) (j : Nat)
    (h : j ∉ iter) : senderBlockAt d ctr iter j = [] := by
  induction iter generalizing ctr with
  | nil => rfl
  | cons p rest ih =>
    rw [List.mem_cons, not_or] at h
    rw [senderBlockAt, if_neg (fun hq => h.1 hq.symm), ih _ h.2]
    rfl

theorem senderBlockAt_piece_bounds (d : Dag) (p ctr c : Nat)
    (h : c ∈ (if (childrenOfD d p).isEmpty
        then [ctr] else List.range' ctr (childrenOfD d p).length)) :
    ctr ≤ c ∧ c < ctr + outDegree d p := by
  rw [outDegree]
  split at h
  · next hemp =>
    rw [List.mem_singleton] at h
    subst h
    rw [if_pos hemp]
    simp
  · next hemp =>
    rw [if_neg hemp]
    exact List.mem_range'_1.mp h

theorem senderBlockAt_bounds (d : Dag) (iter : List Nat) (ctr j c : Nat)
    (h : c ∈ senderBlockAt d ctr iter j) : ctr ≤ c ∧ c < ctr + totalOut d iter := by
  induction iter generalizing ctr with
  | nil => simp [senderBlockAt] at h
  | cons p rest ih =>
    rw [senderBlockAt, List.mem_append] at h
    rw [totalOut_cons]
    have hd := outDegree_pos d p
    rcases h with h | h
    · split at h
      · have := senderBlockAt_piece_bounds d p ctr c h
        omega
      · simp at h
    · have := ih (ctr + outDegree d p) h
      omega

theorem inChans_bounds (d : Dag) (iter : List Nat) (ctr t c : Nat)
    (h : c ∈ inChans d ctr iter t) : ctr ≤ c ∧ c < ctr + totalOut d iter := by
  induction iter generalizing ctr with
  | nil => simp [inChans] at h
  | cons p rest ih =>
    rw [inChans, List.mem_append] at h
    rw [totalOut_cons]
    have hd := outDegree_pos d p
    rcases h with h | h
    · have hb := edgeChans_mem_bounds ctr (childrenOfD d p) t c h
      have hlen : (childrenOfD d p).length ≤ outDegree d p := by
        rw [outDegree]
        split
        · next hemp =>
          rw [List.isEmpty_iff.mp hemp]
          simp
        · exact Nat.le_refl _
      omega
    · have := ih (ctr + outDegree d p) h
      omega

theorem inChans_append (d : Dag) (l1 l2 : List Nat) (ctr t : Nat) :
    inChans d ctr (l1 ++ l2) t = inChans d ctr l1 t ++ inChans d (ctr + totalOut d l1) l2 t := by
  induction l1 generalizing ctr with
  | nil => simp [inChans, totalOut]
  | cons p rest ih =>
    rw [List.cons_append, inChans, inChans, ih (ctr + outDegree d p), totalOut_cons]
    rw [List.append_assoc]
    have : ctr + outDegree d p + totalOut d rest = ctr + (outDegree d p + totalOut d rest) := by
      omega
    rw [this]

theorem termChans_append (d : Dag) (l1 l2 : List Nat) (ctr : Nat) :
    termChans d ctr (l1 ++ l2) = termChans d ctr l1 ++ termChans d (ctr + totalOut d l1) l2 := by
  induction l1 generalizing ctr with
  | nil => simp [termChans, totalOut]
  | cons p rest ih =>
    rw [List.cons_append, termChans, termChans, ih (ctr + outDegree d p), totalOut_cons]
    rw [List.append_assoc]
    have : ctr + outDegree d p + totalOut d rest = ctr + (outDegree d p + totalOut d rest) := by
      omega
    rw [this]

theorem senderBlockAt_append_skip (d : Dag) (pre suf : List Nat) (ctr j : Nat)
    (hj : j ∉ pre) :
    senderBlockAt d ctr (pre ++ suf) j = senderBlockAt d (ctr + totalOut d pre) suf j := by
  induction pre generalizing ctr with
  | nil => simp [totalOut]
  | cons q rest ih =>
    rw [List.mem_cons, not_or] at hj
    rw [List.cons_append, senderBlockAt, if_neg (fun hq => hj.1 hq.symm), ih _ hj.2,
      totalOut_cons]
    have : ctr + outDegree d q + totalOut d rest = ctr + (outDegree d q + totalOut d rest) := by
      omega
    rw [this]
    rfl

theorem inChans_length (d : Dag) (iter : List Nat) (ctr t : Nat) :
    (inChans d ctr iter t).length = (iter.map (fun p => (childrenOfD d p).count t)).sum := by
  induction iter generalizing ctr with
  | nil => rfl
  | cons p rest ih =>
    rw [inChans, List.length_append, edgeChans_length, List.map_cons, List.sum_cons, ih]

theorem new_spec_wired (d : Dag) (iter : List Nat)
    (hOK : DagOK d) (hperm : iter.Perm (keysOf d.nodes)) :
    ∃ comp, Computation.new d iter = some comp ∧ WiredComp d iter comp := by
  obtain ⟨comp, h1, h2, h3, h4, h5, h6, h7⟩ := new_spec d iter hOK hperm
  exact ⟨comp, h1, ⟨h2, h3, h4, h5, h6, h7⟩⟩

/-! ## Producers and consumers of channels -/

theorem contains_iff_mem (l : List Nat) (a : Nat) : (l.contains a) = true ↔ a ∈ l := by
  simp [List.contains_iff_exists_mem_beq]

theorem find?_unique {α : Type} (l : List α) (p : α → Bool) (e : α) (he : e ∈ l)
    (hp : p e = true) (huniq : ∀ x ∈ l, p x = true → x = e) : l.find? p = some e := by
  induction l with
  | nil => simp at he
  | cons a rest ih =>
    by_cases hpa : p a = true
    · rw [List.find?_cons_of_pos _ hpa]
      rw [huniq a (List.mem_cons_self a rest) hpa]
    · rw [List.find?_cons_of_neg _ hpa]
      have hea : e ≠ a := fun hq => hpa (hq ▸ hp)
      have he' : e ∈ rest := by
        rcases List.mem_cons.mp he with rfl | h
        · exact absurd rfl hea
        · exact h
      exact ih he' (fun x hx hpx => huniq x (List.mem_cons_of_mem a hx) hpx)

theorem lookupComp_mem (m : CompMap) (k : Nat) (cn : ComputationNode)
    (h : lookupComp m k = some cn) : (k, cn) ∈ m := by
  unfold lookupComp at h
  cases hf : m.find? (·.1 == k) with
  | none => rw [hf] at h; simp at h
  | some e =>
    obtain ⟨a, b⟩ := e
    rw [hf] at h
    have hm := List.mem_of_find?_eq_some hf
    have hp := List.find?_some hf
    simp at h hp
    subst hp
    subst h
    exact hm

theorem mem_lookup_of_nodup (m : CompMap) (h : (keysC m).Nodup) (e : Nat × ComputationNode)
    (he : e ∈ m) : lookupComp m e.1 = some e.2 := by
  induction m with
  | nil => simp at he
  | cons a rest ih =>
    rw [keysC, List.map_cons, List.nodup_cons] at h
    rcases List.mem_cons.mp he with rfl | hrest
    · rw [lookupComp_cons, if_pos rfl]
    · rw [lookupComp_cons]
      have hne : a.1 ≠ e.1 := by
        intro hq
        exact h.1 (hq ▸ List.mem_map.mpr ⟨e, hrest, rfl⟩)
      rw [if_neg hne]
      exact ih h.2 hrest

theorem dag_lookup_of_mem (d : Dag) (iter : List Nat)
    (_hOK : DagOK d) (hperm : iter.Perm (keysOf d.nodes)) (i : Nat) (hi : i ∈ iter) :
    ∃ node, lookupNode d.nodes i = some node :=
  lookupNode_isSome_of_mem d.nodes i (hperm.mem_iff.mp hi)

theorem entry_char (d : Dag) (iter : List Nat) (comp : Computation)
    (hOK : DagOK d) (hperm : iter.Perm (keysOf d.nodes)) (hw : WiredComp d iter comp)
    (e : Nat × ComputationNode) (he : e ∈ comp.computations) :
    e.1 ∈ iter ∧ ∃ node, lookupNode d.nodes e.1 = some node ∧
      e.2 = { id := e.1, operation := node.operation,
              receivers := inChans d 0 iter e.1 ++
                startChans (totalOut d iter) d.starts e.1,
              senders := senderBlockAt d 0 iter e.1 } := by
  have hkey : e.1 ∈ keysC comp.computations := List.mem_map.mpr ⟨e, he, rfl⟩
  have hiter := (hw.mem_iff e.1).mp hkey
  obtain ⟨node, hnode⟩ := dag_lookup_of_mem d iter hOK hperm e.1 hiter
  have hlook := hw.look_some e.1 node hnode hiter
  have hlook2 := mem_lookup_of_nodup comp.computations hw.nodup e he
  rw [hlook] at hlook2
  exact ⟨hiter, node, hnode, by injection hlook2 with h; exact h.symm⟩

theorem senderBlockAt_disjoint (d : Dag) (iter : List Nat) (ctr j1 j2 c : Nat)
    (h1 : c ∈ senderBlockAt d ctr iter j1) (h2 : c ∈ senderBlockAt d ctr iter j2) :
    j1 = j2 := by
  induction iter generalizing ctr with
  | nil => simp [senderBlockAt] at h1
  | cons p rest ih =>
    rw [senderBlockAt, List.mem_append] at h1 h2
    rcases h1 with h1 | h1 <;> rcases h2 with h2 | h2
    · split at h1
      · next hj1 =>
        split at h2
        · next hj2 => rw [← hj1, ← hj2]
        · simp at h2
      · simp at h1
    · split at h1
      · next hj1 =>
        have hb1 := senderBlockAt_piece_bounds d p ctr c h1
        have hb2 := senderBlockAt_bounds d rest (ctr + outDegree d p) j2 c h2
        omega
      · simp at h1
    · split at h2
      · next hj2 =>
        have hb2 := senderBlockAt_piece_bounds d p ctr c h2
        have hb1 := senderBlockAt_bounds d rest (ctr + outDegree d p) j1 c h1
        omega
      · simp at h2
    · exact ih (ctr + outDegree d p) h1 h2

theorem writerOf_block (d : Dag) (iter : List Nat) (comp : Computation)
    (hOK : DagOK d) (hperm : iter.Perm (keysOf d.nodes)) (hw : WiredComp d iter comp)
    (p : Nat) (hp : p ∈ iter) (c : Nat) (hc : c ∈ senderBlockAt d 0 iter p) :
    writerOf comp c = some p := by
  obtain ⟨node, hnode⟩ := dag_lookup_of_mem d iter hOK hperm p hp
  have hlook := hw.look_some p node hnode hp
  have hent := lookupComp_mem _ _ _ hlook
  rw [writerOf, find?_unique comp.computations _ _ hent ?_ ?_]
  · rfl
  · show (senderBlockAt d 0 iter p).contains c = true
    exact (contains_iff_mem _ _).mpr hc
  · intro x hx hpx
    obtain ⟨hxiter, node', hnode', hx2⟩ := entry_char d iter comp hOK hperm hw x hx
    have hcx : c ∈ senderBlockAt d 0 iter x.1 := by
      have hmemx := (contains_iff_mem _ _).mp hpx
      rw [hx2] at hmemx
      exact hmemx
    have hxp : x.1 = p := senderBlockAt_disjoint d iter 0 x.1 p c hcx hc
    have hnode'' : node' = node := by
      rw [hxp, hnode] at hnode'
      exact (Option.some_inj.mp hnode').symm
    refine Prod.ext_iff.mpr ⟨hxp, ?_⟩
    rw [hx2, hxp, hnode'']

theorem writerOf_high (d : Dag) (iter : List Nat) (comp : Computation)
    (hOK : DagOK d) (hperm : iter.Perm (keysOf d.nodes)) (hw : WiredComp d iter comp)
    (c : Nat) (hc : totalOut d iter ≤ c) : writerOf comp c = none := by
  rw [writerOf]
  have hnone : comp.computations.find? (fun e => e.2.senders.contains c) = none := by
    rw [List.find?_eq_none]
    intro x hx hpx
    obtain ⟨hxiter, node', hnode', hx2⟩ := entry_char d iter comp hOK hperm hw x hx
    have hcx : c ∈ senderBlockAt d 0 iter x.1 := by
      have hmemx := (contains_iff_mem _ _).mp hpx
      rw [hx2] at hmemx
      exact hmemx
    have := senderBlockAt_bounds d iter 0 x.1 c hcx
    omega
  rw [hnone]
  rfl

theorem map_const_replicate {α β : Type} (l : List α) (f : α → β) (x : β)
    (h : ∀ c ∈ l, f c = x) : l.map f = List.replicate l.length x := by
  induction l with
  | nil => rfl
  | cons a rest ih =>
    rw [List.map_cons, List.length_cons, List.replicate_succ,
      h a (List.mem_cons_self a rest), ih (fun c hc => h c (List.mem_cons_of_mem a hc))]

theorem map_range'_some (cs : List Nat) (ctr : Nat) (f : Nat → Option Nat)
    (h : ∀ idx (hidx : idx < cs.length), f (ctr + idx) = some (cs.get ⟨idx, hidx⟩)) :
    (List.range' ctr cs.length).map f = cs.map some := by
  induction cs generalizing ctr with
  | nil => rfl
  | cons c0 rest ih =>
    rw [List.length_cons, List.range'_succ, List.map_cons, List.map_cons]
    have h0 := h 0 (by simp)
    rw [Nat.add_zero] at h0
    rw [h0]
    congr 1
    refine ih (ctr + 1) (fun idx hidx => ?_)
    have := h (idx + 1) (by simpa using Nat.succ_lt_succ hidx)
    rw [show ctr + (idx + 1) = ctr + 1 + idx by omega] at this
    exact this

/-! ## Consumer identification -/

theorem senderBlockAt_at_pos (d : Dag) (pre post : List Nat) (p : Nat)
    (hpre : p ∉ pre) (hpost : p ∉ post) :
    senderBlockAt d 0 (pre ++ p :: post) p =
      (if (childrenOfD d p).isEmpty then [totalOut d pre]
       else List.range' (totalOut d pre) (childrenOfD d p).length) := by
  rw [senderBlockAt_append_skip d pre _ 0 p hpre, senderBlockAt, if_pos rfl,
    senderBlockAt_not_mem d _ post p hpost, Nat.zero_add]
  simp

theorem mem_inChans_decomp (d : Dag) (pre post : List Nat) (p : Nat) (q c : Nat)
    (h : c ∈ inChans d 0 (pre ++ p :: post) q) :
    c ∈ inChans d 0 pre q ∨
    c ∈ edgeChans (totalOut d pre) (childrenOfD d p) q ∨
    c ∈ inChans d (totalOut d pre + outDegree d p) post q := by
  rw [inChans_append, Nat.zero_add, inChans, List.mem_append, List.mem_append] at h
  tauto

theorem mem_inChans_of_edge (d : Dag) (pre post : List Nat) (p : Nat) (q c : Nat)
    (h : c ∈ edgeChans (totalOut d pre) (childrenOfD d p) q) :
    c ∈ inChans d 0 (pre ++ p :: post) q := by
  rw [inChans_append, Nat.zero_add, inChans, List.mem_append, List.mem_append]
  exact Or.inr (Or.inl h)

theorem readerOf_edge (d : Dag) (iter : List Nat) (comp : Computation)
    (hOK : DagOK d) (hperm : iter.Perm (keysOf d.nodes)) (hw : WiredComp d iter comp)
    (pre post : List Nat) (p : Nat) (hiter : iter = pre ++ p :: post)
    (idx : Nat) (hidx : idx < (childrenOfD d p).length) :
    readerOf comp (totalOut d pre + idx) =
      some ((childrenOfD d p).get ⟨idx, hidx⟩) := by
  have hp : p ∈ iter := by
    rw [hiter]
    exact List.mem_append_right _ (List.mem_cons_self p post)
  obtain ⟨pnode, hpnode⟩ := dag_lookup_of_mem d iter hOK hperm p hp
  have hcs : childrenOfD d p = pnode.children := childrenOfD_eq d p pnode hpnode
  have hq0mem : (childrenOfD d p).get ⟨idx, hidx⟩ ∈ childrenOfD d p :=
    List.get_mem _ _ hidx
  have hq0mem' : (childrenOfD d p).get ⟨idx, hidx⟩ ∈ pnode.children := by
    rw [← hcs]
    exact hq0mem
  have hq0iter : (childrenOfD d p).get ⟨idx, hidx⟩ ∈ iter :=
    hperm.mem_iff.mpr
      (hOK.child_mem (p, pnode) (lookupNode_mem d.nodes p pnode hpnode) _ hq0mem')
  obtain ⟨qnode, hqnode⟩ :=
    dag_lookup_of_mem d iter hOK hperm ((childrenOfD d p).get ⟨idx, hidx⟩) hq0iter
  have hlookq := hw.look_some _ qnode hqnode hq0iter
  have hent := lookupComp_mem _ _ _ hlookq
  -- the channel of interest
  have hclt : totalOut d pre + idx < totalOut d pre + outDegree d p := by
    have : (childrenOfD d p).length ≤ outDegree d p := by
      rw [outDegree]
      split
      · next hemp => rw [List.isEmpty_iff.mp hemp]; simp
      · exact Nat.le_refl _
    omega
  have hcE : totalOut d pre + idx < totalOut d iter := by
    rw [hiter, totalOut_append, totalOut_cons]
    omega
  have hcm : totalOut d pre + idx ∈
      inChans d 0 iter ((childrenOfD d p).get ⟨idx, hidx⟩) := by
    rw [hiter]
    exact mem_inChans_of_edge d pre post p _ _
      ((edgeChans_get_mem (totalOut d pre) (childrenOfD d p) _ idx hidx).mpr rfl)
  rw [readerOf, find?_unique comp.computations _ _ hent ?_ ?_]
  · rfl
  · show (inChans d 0 iter _ ++ startChans (totalOut d iter) d.starts _).contains
        (totalOut d pre + idx) = true
    rw [contains_iff_mem, List.mem_append]
    exact Or.inl hcm
  · intro x hx hpx
    obtain ⟨hxiter, node', hnode', hx2⟩ := entry_char d iter comp hOK hperm hw x hx
    have hcmx := (contains_iff_mem _ _).mp hpx
    rw [hx2, List.mem_append] at hcmx
    have hcx : totalOut d pre + idx ∈ inChans d 0 iter x.1 := by
      rcases hcmx with h | h
      · exact h
      · have := startChans_mem_bounds _ _ _ _ h
        omega
    have hxq : x.1 = (childrenOfD d p).get ⟨idx, hidx⟩ := by
      rw [hiter] at hcx
      rcases mem_inChans_decomp d pre post p x.1 _ hcx with h | h | h
      · have := inChans_bounds d pre 0 x.1 _ h
        omega
      · exact ((edgeChans_get_mem (totalOut d pre) (childrenOfD d p) x.1 idx hidx).mp h).symm
      · have := inChans_bounds d post (totalOut d pre + outDegree d p) x.1 _ h
        omega
    have hnode'' : node' = qnode := by
      rw [hxq, hqnode] at hnode'
      exact (Option.some_inj.mp hnode').symm
    refine Prod.ext_iff.mpr ⟨hxq, ?_⟩
    rw [hx2, hxq, hnode'']

theorem readerOf_term (d : Dag) (iter : List Nat) (comp : Computation)
    (hOK : DagOK d) (hperm : iter.Perm (keysOf d.nodes)) (hw : WiredComp d iter comp)
    (pre post : List Nat) (p : Nat) (hiter : iter = pre ++ p :: post)
    (hterm : childrenOfD d p = []) :
    readerOf comp (totalOut d pre) = none := by
  have hdeg : outDegree d p = 1 := by
    rw [outDegree, hterm]
    rfl
  rw [readerOf]
  have hnone : comp.computations.find? (fun e => e.2.receivers.contains (totalOut d pre)) =
      none := by
    rw [List.find?_eq_none]
    intro x hx hpx
    obtain ⟨hxiter, node', hnode', hx2⟩ := entry_char d iter comp hOK hperm hw x hx
    have hcmx := (contains_iff_mem _ _).mp hpx
    rw [hx2, List.mem_append] at hcmx
    have hcE : totalOut d pre < totalOut d iter := by
      rw [hiter, totalOut_append, totalOut_cons]
      omega
    have hcx : totalOut d pre ∈ inChans d 0 iter x.1 := by
      rcases hcmx with h | h
      · exact h
      · have := startChans_mem_bounds _ _ _ _ h
        omega
    rw [hiter] at hcx
    rcases mem_inChans_decomp d pre post p x.1 _ hcx with h | h | h
    · have := inChans_bounds d pre 0 x.1 _ h
      omega
    · rw [hterm] at h
      simp [edgeChans] at h
    · have := inChans_bounds d post (totalOut d pre + outDegree d p) x.1 _ h
      omega
  rw [hnone]
  rfl

theorem termChan_mem (d : Dag) (pre post : List Nat) (p : Nat)
    (hterm : (childrenOfD d p).isEmpty = true) :
    totalOut d pre ∈ termChans d 0 (pre ++ p :: post) := by
  rw [termChans_append, Nat.zero_add, termChans, if_pos hterm, List.mem_append]
  exact Or.inr (List.mem_append_left _ (List.mem_singleton.mpr rfl))

theorem nodup_split {α : Type} (pre post : List α) (a : α)
    (h : (pre ++ a :: post).Nodup) : a ∉ pre ∧ a ∉ post := by
  rw [List.nodup_append] at h
  obtain ⟨h1, h2, h3⟩ := h
  exact ⟨fun hm => h3 hm (List.mem_cons_self a post), (List.nodup_cons.mp h2).1⟩

theorem mem_split_nodup (l : List Nat) (a : Nat) (hnd : l.Nodup) (ha : a ∈ l) :
    ∃ pre post, l = pre ++ a :: post ∧ a ∉ pre ∧ a ∉ post := by
  obtain ⟨pre, post, hl⟩ := List.append_of_mem ha
  rw [hl] at hnd
  obtain ⟨h1, h2⟩ := nodup_split pre post a hnd
  exact ⟨pre, post, hl, h1, h2⟩

theorem writerOf_edgeChan (d : Dag) (iter : List Nat) (comp : Computation)
    (hOK : DagOK d) (hperm : iter.Perm (keysOf d.nodes)) (hw : WiredComp d iter comp)
    (pre post : List Nat) (p : Nat) (hiter : iter = pre ++ p :: post)
    (hpre : p ∉ pre) (hpost : p ∉ post) (t c : Nat)
    (hc : c ∈ edgeChans (totalOut d pre) (childrenOfD d p) t) :
    writerOf comp c = some p := by
  have hp : p ∈ iter := by
    rw [hiter]
    exact List.mem_append_right _ (List.mem_cons_self p post)
  have hb := edgeChans_mem_bounds _ _ _ _ hc
  have hne : (childrenOfD d p).isEmpty = false := by
    cases hcs : childrenOfD d p with
    | nil => rw [hcs] at hc; simp [edgeChans] at hc
    | cons x xs => rfl
  have hmem : c ∈ senderBlockAt d 0 iter p := by
    rw [hiter, senderBlockAt_at_pos d pre post p hpre hpost, hne, if_neg (by simp)]
    exact List.mem_range'_1.mpr ⟨hb.1, hb.2⟩
  exact writerOf_block d iter comp hOK hperm hw p hp c hmem

theorem inChans_map_writer (d : Dag) (iter : List Nat) (comp : Computation)
    (hOK : DagOK d) (hperm : iter.Perm (keysOf d.nodes)) (hw : WiredComp d iter comp)
    (t : Nat) :
    ∀ suf pre, iter = pre ++ suf →
    (inChans d (totalOut d pre) suf t).map (writerOf comp) =
      suf.flatMap (fun p => List.replicate ((childrenOfD d p).count t) (some p)) := by
  intro suf
  induction suf with
  | nil => intro pre _; rfl
  | cons p rest ih =>
    intro pre hiter
    have hnd : iter.Nodup := hperm.nodup_iff.mpr (nodup_keys_of_dagOK d hOK)
    rw [hiter] at hnd
    obtain ⟨hppre, hprest⟩ := nodup_split pre rest p hnd
    rw [inChans, List.map_append, List.flatMap_cons]
    have h1 : (edgeChans (totalOut d pre) (childrenOfD d p) t).map (writerOf comp) =
        List.replicate ((childrenOfD d p).count t) (some p) := by
      rw [map_const_replicate _ _ (some p)
        (fun c hc => writerOf_edgeChan d iter comp hOK hperm hw pre rest p hiter
          hppre hprest t c hc), edgeChans_length]
    have h2 := ih (pre ++ [p]) (by rw [hiter, List.append_assoc]; rfl)
    rw [totalOut_append, totalOut_single] at h2
    rw [h1, h2]

theorem startChans_map_writer (d : Dag) (iter : List Nat) (comp : Computation)
    (hOK : DagOK d) (hperm : iter.Perm (keysOf d.nodes)) (hw : WiredComp d iter comp)
    (t : Nat) :
    (startChans (totalOut d iter) d.starts t).map (writerOf comp) =
      List.replicate (d.starts.count t) none := by
  have h : ∀ c ∈ startChans (totalOut d iter) d.starts t, writerOf comp c = none := by
    intro c hc
    have := startChans_mem_bounds _ _ _ _ hc
    exact writerOf_high d iter comp hOK hperm hw c (by omega)
  rw [map_const_replicate _ _ none h, startChans_length]

theorem inputWriters_spec (d : Dag) (iter : List Nat) (comp : Computation)
    (hOK : DagOK d) (hperm : iter.Perm (keysOf d.nodes)) (hw : WiredComp d iter comp)
    (j : Nat) (hj : j ∈ iter) :
    inputWriters comp j =
      iter.flatMap (fun p => List.replicate ((childrenOfD d p).count j) (some p)) ++
      List.replicate (d.starts.count j) none := by
  obtain ⟨node, hnode⟩ := dag_lookup_of_mem d iter hOK hperm j hj
  have hlook := hw.look_some j node hnode hj
  simp only [inputWriters, hlook]
  rw [List.map_append, startChans_map_writer d iter comp hOK hperm hw j]
  congr 1
  have h := inChans_map_writer d iter comp hOK hperm hw j iter [] (by simp)
  rw [show totalOut d ([] : List Nat) = 0 from rfl] at h
  exact h

theorem outputReaders_spec (d : Dag) (iter : List Nat) (comp : Computation)
    (hOK : DagOK d) (hperm : iter.Perm (keysOf d.nodes)) (hw : WiredComp d iter comp)
    (j : Nat) (hj : j ∈ iter) :
    outputReaders comp j =
      if (childrenOfD d j).isEmpty then [none] else (childrenOfD d j).map some := by
  have hnd : iter.Nodup := hperm.nodup_iff.mpr (nodup_keys_of_dagOK d hOK)
  obtain ⟨pre, post, hiter, hjpre, hjpost⟩ := mem_split_nodup iter j hnd hj
  obtain ⟨node, hnode⟩ := dag_lookup_of_mem d iter hOK hperm j hj
  have hlook := hw.look_some j node hnode hj
  simp only [outputReaders, hlook]
  show (senderBlockAt d 0 iter j).map (readerOf comp) = _
  rw [hiter, senderBlockAt_at_pos d pre post j hjpre hjpost]
  by_cases hemp : (childrenOfD d j).isEmpty
  · rw [if_pos hemp, if_pos hemp, List.map_cons, List.map_nil,
      readerOf_term d iter comp hOK hperm hw pre post j hiter (List.isEmpty_iff.mp hemp)]
  · rw [if_neg hemp, if_neg hemp]
    exact map_range'_some (childrenOfD d j) (totalOut d pre) (readerOf comp)
      (fun idx hidx => readerOf_edge d iter comp hOK hperm hw pre post j hiter idx hidx)

theorem terminal_sink (d : Dag) (iter : List Nat) (comp : Computation)
    (hOK : DagOK d) (hperm : iter.Perm (keysOf d.nodes)) (hw : WiredComp d iter comp)
    (j : Nat) (hj : j ∈ iter) (hterm : (childrenOfD d j).isEmpty = true) :
    ∃ cn, lookupComp comp.computations j = some cn ∧
      ∃ c, cn.senders = [c] ∧ c ∈ comp.result_receivers := by
  have hnd : iter.Nodup := hperm.nodup_iff.mpr (nodup_keys_of_dagOK d hOK)
  obtain ⟨pre, post, hiter, hjpre, hjpost⟩ := mem_split_nodup iter j hnd hj
  obtain ⟨node, hnode⟩ := dag_lookup_of_mem d iter hOK hperm j hj
  have hlook := hw.look_some j node hnode hj
  refine ⟨_, hlook, totalOut d pre, ?_, ?_⟩
  · show senderBlockAt d 0 iter j = [totalOut d pre]
    rw [hiter, senderBlockAt_at_pos d pre post j hjpre hjpost, if_pos hterm]
  · rw [hw.rres, hiter]
    exact termChan_mem d pre post j hterm

/-- C3 (amended): after a successful `Computation::new` on a dag built by a
good script, for every node `j`: the inbound channel list carries, for each
parent `p` taken in the nodes-map iteration order (not registration order),
one channel per edge `p → j` whose producer is `p`, followed by one
engine-held initial-value channel per occurrence of `j` in `starts`; the
outbound channel list is one channel per child, in child-registration order,
each consumed by that child, or exactly one engine-held result-sink channel
(a member of `result_receivers`) when `j` has no children. Receiver and
sender counts follow from these list identities. -/
theorem c3_amended_wiring (script : List (Operation × List Nat))
    (hg : goodScript script = true) (d : Dag) (hb : buildDag script = some d)
    (iter : List Nat) (hperm : iter.Perm (keysOf d.nodes)) :
    ∃ comp, Computation.new d iter = some comp ∧
      ∀ j ∈ iter,
        inputWriters comp j =
          iter.flatMap (fun p => List.replicate ((childrenOfD d p).count j) (some p)) ++
            List.replicate (d.starts.count j) none ∧
        outputReaders comp j =
          (if (childrenOfD d j).isEmpty then [none] else (childrenOfD d j).map some) ∧
        ((childrenOfD d j).isEmpty = true →
          ∃ cn, lookupComp comp.computations j = some cn ∧
            ∃ c, cn.senders = [c] ∧ c ∈ comp.result_receivers) := by
  obtain ⟨d', hb', hOK, _, _⟩ := buildFrom_good script Dag.default dagOK_default hg
  rw [buildDag, hb'] at hb
  have hdd : d' = d := by
    simpa using hb
  rw [hdd] at hOK
  obtain ⟨comp, hnew, hw⟩ := new_spec_wired d iter hOK hperm
  refine ⟨comp, hnew, fun j hj => ?_⟩
  exact ⟨inputWriters_spec d iter comp hOK hperm hw j hj,
    outputReaders_spec d iter comp hOK hperm hw j hj,
    fun hterm => terminal_sink d iter comp hOK hperm hw j hj hterm⟩

theorem c3_amended_wiring_witness :
    goodScript diamondScript = true ∧
    buildDag diamondScript = some diamondDag ∧
    List.Perm [2, 1, 3, 5, 4, 6] (keysOf diamondDag.nodes) ∧
    (∃ comp, Computation.new diamondDag [2, 1, 3, 5, 4, 6] = some comp ∧
      ∀ j ∈ [2, 1, 3, 5, 4, 6],
        inputWriters comp j =
          [2, 1, 3, 5, 4, 6].flatMap
              (fun p => List.replicate ((childrenOfD diamondDag p).count j) (some p)) ++
            List.replicate (diamondDag.starts.count j) none ∧
        outputReaders comp j =
          (if (childrenOfD diamondDag j).isEmpty then [none]
           else (childrenOfD diamondDag j).map some) ∧
        ((childrenOfD diamondDag j).isEmpty = true →
          ∃ cn, lookupComp comp.computations j = some cn ∧
            ∃ c, cn.senders = [c] ∧ c ∈ comp.result_receivers)) := by
  refine ⟨by decide, by decide, by decide, ?_⟩
  exact c3_amended_wiring diamondScript (by decide) diamondDag (by decide)
    [2, 1, 3, 5, 4, 6] (by decide)

/-! ## Multi-edge parents: add_node multiplicity -/

theorem lookupNode_cons (e : Nat × Node) (rest : List (Nat × Node)) (p : Nat) :
    lookupNode (e :: rest) p = if e.1 = p then some e.2 else lookupNode rest p := by
  by_cases h : e.1 = p
  · simp [lookupNode, List.find?_cons_of_pos, h]
  · simp [lookupNode, List.find?_cons_of_neg, h]

theorem lookupNode_append_of_some (l l' : List (Nat × Node)) (p : Nat) (n : Node)
    (h : lookupNode l p = some n) : lookupNode (l ++ l') p = some n := by
  induction l with
  | nil => simp [lookupNode] at h
  | cons e rest ih =>
    rw [lookupNode_cons] at h
    rw [List.cons_append, lookupNode_cons]
    by_cases he : e.1 = p
    · rwa [if_pos he] at h ⊢
    · rw [if_neg he] at h ⊢
      exact ih h

theorem lookupNode_pushChild_self (l : List (Nat × Node)) (q cid : Nat) :
    lookupNode (pushChild l q cid) q =
      (lookupNode l q).map (fun n => { n with children := n.children ++ [cid] }) := by
  induction l with
  | nil => rfl
  | cons e rest ih =>
    rw [pushChild, List.map_cons]
    by_cases he : e.1 = q
    · rw [if_pos (by simp [he]), lookupNode_cons, lookupNode_cons, if_pos he,
        if_pos he]
      rfl
    · rw [if_neg (by simp [he]), lookupNode_cons, lookupNode_cons, if_neg he,
        if_neg he]
      exact ih

theorem lookupNode_pushChild_ne (l : List (Nat × Node)) (q cid p : Nat) (h : p ≠ q) :
    lookupNode (pushChild l q cid) p = lookupNode l p := by
  induction l with
  | nil => rfl
  | cons e rest ih =>
    rw [pushChild, List.map_cons]
    by_cases he : e.1 = q
    · rw [if_pos (by simp [he]), lookupNode_cons, lookupNode_cons,
        if_neg (by simp [he]; exact fun hq => h (hq ▸ he ▸ rfl)), if_neg (he ▸ fun hq => h hq.symm)]
      exact ih
    · rw [if_neg (by simp [he]), lookupNode_cons, lookupNode_cons]
      by_cases hep : e.1 = p
      · rw [if_pos hep, if_pos hep]
      · rw [if_neg hep, if_neg hep]
        exact ih

theorem childrenOfD_pushChild_self (d d1 : Dag) (q cid : Nat)
    (h1 : d1.nodes = pushChild d.nodes q cid) (n : Node)
    (hn : lookupNode d.nodes q = some n) :
    childrenOfD d1 q = childrenOfD d q ++ [cid] := by
  rw [childrenOfD, childrenOfD, h1, lookupNode_pushChild_self, hn]
  rfl

theorem childrenOfD_pushChild_ne (d d1 : Dag) (q cid p : Nat)
    (h1 : d1.nodes = pushChild d.nodes q cid) (h : p ≠ q) :
    childrenOfD d1 p = childrenOfD d p := by
  rw [childrenOfD, childrenOfD, h1, lookupNode_pushChild_ne _ _ _ _ h]

theorem addParentsLoop_children_count (id : Nat) (ps : List Nat) :
    ∀ d d' rid, addParentsLoop id d ps = AddNodeResult.ok d' rid →
    ∀ p, childrenOfD d' p = childrenOfD d p ++ List.replicate (ps.count p) id := by
  induction ps with
  | nil =>
    intro d d' rid h p
    rw [addParentsLoop] at h
    cases h
    simp
  | cons q rest ih =>
    intro d d' rid h p
    rw [addParentsLoop] at h
    by_cases hq : containsKey d.nodes q = true
    · rw [if_pos hq] at h
      have hstep := ih _ _ _ h p
      by_cases hpq : p = q
      · obtain ⟨n, hn⟩ := lookupNode_isSome_of_mem d.nodes q ((containsKey_iff _ _).mp hq)
        have hq1 : childrenOfD { d with nodes := pushChild d.nodes q id } p =
            childrenOfD d p ++ [id] := by
          rw [hpq]
          exact childrenOfD_pushChild_self d _ q id rfl n hn
        rw [hstep, hq1, List.append_assoc]
        congr 1
        simp [List.count_cons, hpq, List.replicate_succ]
      · have hq1 : childrenOfD { d with nodes := pushChild d.nodes q id } p =
            childrenOfD d p :=
          childrenOfD_pushChild_ne d _ q id p rfl hpq
        rw [hstep, hq1]
        congr 2
        simp [List.count_cons, hpq]
    · rw [if_neg hq] at h
      cases h

theorem childrenOfD_append_node (d : Dag) (d1 : Dag) (e : Nat × Node)
    (h1 : d1.nodes = d.nodes ++ [e]) (p : Nat) (n : Node)
    (hn : lookupNode d.nodes p = some n) : childrenOfD d1 p = childrenOfD d p := by
  rw [childrenOfD, childrenOfD, h1, lookupNode_append_of_some _ _ _ _ hn, hn]

theorem add_node_children_count (d : Dag) (op : Operation) (ps : List Nat)
    (d' : Dag) (nid : Nat) (hOK : DagOK d)
    (hadd : d.add_node op ps = AddNodeResult.ok d' nid)
    (p : Nat) (hp : p ∈ keysOf d.nodes) :
    childrenOfD d' p = childrenOfD d p ++ List.replicate (ps.count p) (d.current_id + 1) := by
  have hple : p ≤ d.current_id := by
    rw [hOK.keys_eq] at hp
    exact ((mem_range1_iff p d.current_id).mp hp).2
  have hid : (d.current_id + 1) ∉ keysOf d.nodes := by
    intro hmem
    rw [hOK.keys_eq] at hmem
    have := ((mem_range1_iff _ _).mp hmem).2
    omega
  obtain ⟨n, hn⟩ := lookupNode_isSome_of_mem d.nodes p hp
  simp only [Dag.add_node, Dag.next_id, insertNode_fresh _ _ _ hid] at hadd
  cases hps : ps with
  | nil =>
    rw [hps] at hadd
    simp only [List.length_nil] at hadd
    cases hadd
    rw [childrenOfD_append_node d _ _ rfl p n hn]
    simp
  | cons q rest =>
    rw [hps] at hadd
    simp only [List.length_cons] at hadd
    rw [if_neg (by simp)] at hadd
    have hloop := addParentsLoop_children_count (d.current_id + 1) (q :: rest) _ _ _ hadd p
    rw [hloop, childrenOfD_append_node d _ _ rfl p n hn]

theorem famLoop (j : Nat) :
    ∀ cs, addParentsLoop 2
      { nodes := [(1, { id := 1, children := cs, operation := sumOp }),
                  (2, { id := 2, children := [], operation := sumOp })],
        starts := [1], current_id := 2 } (List.replicate j 1) =
      AddNodeResult.ok
        { nodes := [(1, { id := 1, children := cs ++ List.replicate j 2,
                          operation := sumOp }),
                    (2, { id := 2, children := [], operation := sumOp })],
          starts := [1], current_id := 2 } 2 := by
  induction j with
  | zero =>
    intro cs
    simp [addParentsLoop]
  | succ j ih =>
    intro cs
    rw [List.replicate_succ]
    have h1 : containsKey
        [(1, ({ id := 1, children := cs, operation := sumOp } : Node)),
         (2, { id := 2, children := [], operation := sumOp })] 1 = true := rfl
    simp only [addParentsLoop, h1, if_true]
    have h2 : pushChild
        [(1, ({ id := 1, children := cs, operation := sumOp } : Node)),
         (2, { id := 2, children := [], operation := sumOp })] 1 2 =
        [(1, { id := 1, children := cs ++ [2], operation := sumOp }),
         (2, { id := 2, children := [], operation := sumOp })] := by
      simp [pushChild]
    rw [h2, ih (cs ++ [2])]
    simp [List.append_assoc, List.replicate_succ]

theorem buildDag_multiEdge (k : Nat) :
    buildDag (multiEdgeScript (k + 1)) = some (famDag (k + 1)) := by
  have h2 : ({ nodes := [(1, { id := 1, children := [], operation := sumOp })],
               starts := [1], current_id := 1 } : Dag).add_node sumOp
        (List.replicate (k + 1) 1) = AddNodeResult.ok (famDag (k + 1)) 2 := by
    simp only [Dag.add_node, Dag.next_id, List.length_replicate]
    rw [if_neg (by simp)]
    have h := famLoop (k + 1) []
    simp only [List.nil_append] at h
    exact h
  have h0 : buildDag (multiEdgeScript (k + 1)) =
      buildFrom { nodes := [(1, { id := 1, children := [], operation := sumOp })],
                  starts := [1], current_id := 1 } [(sumOp, List.replicate (k + 1) 1)] := rfl
  rw [h0, buildFrom, h2]
  rfl

theorem wireChildren_single (j : Nat) :
    ∀ (parent n2 : ComputationNode) (ctr : Nat),
    wireChildren parent [(2, n2)] ctr (List.replicate j 2) =
      some ({ parent with senders := parent.senders ++ List.range' ctr j },
            [(2, { n2 with receivers := n2.receivers ++ List.range' ctr j })], ctr + j) := by
  induction j with
  | zero =>
    intro parent n2 ctr
    simp [wireChildren]
  | succ j ih =>
    intro parent n2 ctr
    rw [List.replicate_succ, wireChildren, if_pos (show ([(2, n2)].any fun x => x.1 == 2) = true from rfl)]
    have ha : addInput [(2, n2)] 2 ctr =
        [(2, { n2 with receivers := n2.receivers ++ [ctr] })] := by
      simp [addInput]
    rw [ha, ih]
    simp only [List.range'_succ, Option.some_inj, Prod.mk.injEq]
    refine ⟨by simp, by simp, by omega⟩

theorem new_famDag_12 (k : Nat) :
    Computation.new (famDag (k + 1)) [1, 2] =
      some { result_receivers := [k + 1], initial_senders := [k + 2],
             computations :=
               [(1, { id := 1, operation := sumOp, receivers := [k + 2],
                      senders := List.range' 0 (k + 1) }),
                (2, { id := 2, operation := sumOp,
                      receivers := List.range' 0 (k + 1), senders := [k + 1] })] } := by
  have hwc := wireChildren_single (k + 1) (ComputationNode.new 1 sumOp)
    (ComputationNode.new 2 sumOp) 0
  have h1e : (List.replicate (k + 1) 2).isEmpty = false := by simp
  have hcc : createComps (famDag (k + 1)) [1, 2] =
      some [(1, ComputationNode.new 1 sumOp), (2, ComputationNode.new 2 sumOp)] := rfl
  have hl1 : lookupComp [(1, ComputationNode.new 1 sumOp), (2, ComputationNode.new 2 sumOp)] 1 =
      some (ComputationNode.new 1 sumOp) := rfl
  have her1 : eraseComp [(1, ComputationNode.new 1 sumOp), (2, ComputationNode.new 2 sumOp)] 1 =
      [(2, ComputationNode.new 2 sumOp)] := rfl
  have hn1 : lookupNode (famDag (k + 1)).nodes 1 =
      some { id := 1, children := List.replicate (k + 1) 2, operation := sumOp } := rfl
  have hn2 : lookupNode (famDag (k + 1)).nodes 2 =
      some { id := 2, children := [], operation := sumOp } := rfl
  have hins1 : ∀ (a b : ComputationNode), insertComp [(2, a)] 1 b = [(2, a), (1, b)] :=
    fun a b => rfl
  have hl2 : ∀ (a b : ComputationNode), lookupComp [(2, a), (1, b)] 2 = some a :=
    fun a b => rfl
  have her2 : ∀ (a b : ComputationNode), eraseComp [(2, a), (1, b)] 2 = [(1, b)] :=
    fun a b => rfl
  have hins2 : ∀ (a b : ComputationNode), insertComp [(1, b)] 2 a = [(1, b), (2, a)] :=
    fun a b => rfl
  have hadd1 : ∀ (a b : ComputationNode) (c : Nat), addInput [(1, a), (2, b)] 1 c =
      [(1, { a with receivers := a.receivers ++ [c] }), (2, b)] := by
    intro a b c
    simp [addInput]
  rw [Computation.new, hcc]
  simp only [Option.bind_eq_bind, Option.some_bind]
  rw [wireNodes]
  simp only [hl1, hn1, Option.bind_eq_bind, Option.some_bind, her1, h1e, Bool.false_eq_true,
    if_false, hwc, hins1]
  rw [wireNodes]
  simp only [hl2, hn2, Option.bind_eq_bind, Option.some_bind, her2, List.isEmpty_nil,
    if_true, hins2]
  rw [wireNodes]
  simp only [Option.bind_eq_bind, Option.some_bind,
    show (famDag (k + 1)).starts = [1] from rfl]
  rw [wireStarts]
  simp only [show ∀ (a b : ComputationNode), ([(1, a), (2, b)].any (·.1 == 1)) = true from
    fun a b => rfl, if_true, hadd1]
  rw [wireStarts]
  simp [ComputationNode.new]

theorem new_famDag_21 (k : Nat) :
    Computation.new (famDag (k + 1)) [2, 1] =
      some { result_receivers := [0], initial_senders := [k + 2],
             computations :=
               [(2, { id := 2, operation := sumOp,
                      receivers := List.range' 1 (k + 1), senders := [0] }),
                (1, { id := 1, operation := sumOp, receivers := [k + 2],
                      senders := List.range' 1 (k + 1) })] } := by
  have h1e : (List.replicate (k + 1) 2).isEmpty = false := by simp
  have hcc : createComps (famDag (k + 1)) [2, 1] =
      some [(2, ComputationNode.new 2 sumOp), (1, ComputationNode.new 1 sumOp)] := rfl
  have hl2 : lookupComp [(2, ComputationNode.new 2 sumOp), (1, ComputationNode.new 1 sumOp)] 2 =
      some (ComputationNode.new 2 sumOp) := rfl
  have her2 : eraseComp [(2, ComputationNode.new 2 sumOp), (1, ComputationNode.new 1 sumOp)] 2 =
      [(1, ComputationNode.new 1 sumOp)] := rfl
  have hn1 : lookupNode (famDag (k + 1)).nodes 1 =
      some { id := 1, children := List.replicate (k + 1) 2, operation := sumOp } := rfl
  have hn2 : lookupNode (famDag (k + 1)).nodes 2 =
      some { id := 2, children := [], operation := sumOp } := rfl
  have hins2 : ∀ (a b : ComputationNode), insertComp [(1, a)] 2 b = [(1, a), (2, b)] :=
    fun a b => rfl
  have hl1 : ∀ (a b : ComputationNode), lookupComp [(1, a), (2, b)] 1 = some a :=
    fun a b => rfl
  have her1 : ∀ (a b : ComputationNode), eraseComp [(1, a), (2, b)] 1 = [(2, b)] :=
    fun a b => rfl
  have hins1 : ∀ (a b : ComputationNode), insertComp [(2, a)] 1 b = [(2, a), (1, b)] :=
    fun a b => rfl
  have hadd1 : ∀ (a b : ComputationNode) (c : Nat), addInput [(2, a), (1, b)] 1 c =
      [(2, a), (1, { b with receivers := b.receivers ++ [c] })] := by
    intro a b c
    simp [addInput]
  rw [Computation.new, hcc]
  simp only [Option.bind_eq_bind, Option.some_bind]
  rw [wireNodes]
  simp only [hl2, hn2, Option.bind_eq_bind, Option.some_bind, her2, List.isEmpty_nil,
    if_true, hins2]
  rw [wireNodes]
  simp only [hl1, hn1, Option.bind_eq_bind, Option.some_bind, her1, h1e, Bool.false_eq_true,
    if_false, wireChildren_single, hins1]
  rw [wireNodes]
  simp only [Option.bind_eq_bind, Option.some_bind,
    show (famDag (k + 1)).starts = [1] from rfl]
  rw [wireStarts]
  simp only [show ∀ (a b : ComputationNode), ([(2, a), (1, b)].any (·.1 == 1)) = true from
    fun a b => rfl, if_true, hadd1]
  rw [wireStarts]
  simp only [show (1 : Nat) + (k + 1) = k + 2 from by omega]
  simp [ComputationNode.new]

/-! ## Executor arithmetic for the multi-edge family -/

theorem readChan_cons (a : Nat) (w : Int) (st : ChanMap) (c : Nat) :
    readChan ((a, w) :: st) c = if a = c then some w else readChan st c := by
  by_cases h : a = c
  · simp [readChan, List.find?_cons_of_pos, h]
  · simp [readChan, List.find?_cons_of_neg, h]

theorem readChan_append_of_none (st st' : ChanMap) (c : Nat)
    (h : readChan st c = none) : readChan (st ++ st') c = readChan st' c := by
  induction st with
  | nil => rfl
  | cons e rest ih =>
    obtain ⟨a, w⟩ := e
    rw [readChan_cons] at h
    rw [List.cons_append, readChan_cons]
    by_cases ha : a = c
    · rw [if_pos ha] at h
      exact absurd h (by simp)
    · rw [if_neg ha] at h ⊢
      exact ih h

theorem readChan_map_range'_mem (a n c : Nat) (w : Int) (h : a ≤ c ∧ c < a + n) :
    readChan ((List.range' a n).map (fun x => (x, w))) c = some w := by
  induction n generalizing a with
  | zero => omega
  | succ n ih =>
    rw [List.range'_succ, List.map_cons, readChan_cons]
    by_cases ha : a = c
    · rw [if_pos ha]
    · rw [if_neg ha]
      exact ih (a + 1) (by omega)

theorem readChan_map_range'_out (a n c : Nat) (w : Int) (h : c < a ∨ a + n ≤ c) :
    readChan ((List.range' a n).map (fun x => (x, w))) c = none := by
  induction n generalizing a with
  | zero => rfl
  | succ n ih =>
    rw [List.range'_succ, List.map_cons, readChan_cons, if_neg (by omega)]
    exact ih (a + 1) (by omega)

theorem mapM_some_replicate (l : List Nat) (f : Nat → Option Int) (w : Int)
    (h : ∀ c ∈ l, f c = some w) : l.mapM f = some (List.replicate l.length w) := by
  induction l with
  | nil => rfl
  | cons a rest ih =>
    rw [List.mapM_cons, h a (List.mem_cons_self a rest),
      ih (fun c hc => h c (List.mem_cons_of_mem a hc))]
    rfl

theorem perm_pair (l : List Nat) (a b : Nat) (hab : a ≠ b) (h : l.Perm [a, b]) :
    l = [a, b] ∨ l = [b, a] := by
  have hlen : l.length = 2 := by
    rw [h.length_eq]
    rfl
  match l, hlen with
  | [x, y], _ =>
    have hx : x ∈ [a, b] := h.subset (by simp)
    have hy : y ∈ [a, b] := h.subset (by simp)
    have hnd : ([x, y] : List Nat).Nodup := h.nodup_iff.mpr (by simp [hab])
    have hxy : x ≠ y := by
      simp at hnd
      exact hnd
    simp only [List.mem_cons, List.mem_singleton, List.not_mem_nil, or_false] at hx hy
    rcases hx with rfl | rfl
    · rcases hy with rfl | rfl
      · exact absurd rfl hxy
      · exact Or.inl rfl
    · rcases hy with rfl | rfl
      · exact Or.inr rfl
      · exact absurd rfl hxy

theorem iterateRounds_two (m : CompMap) (acc : ChanMap × List Nat) :
    iterateRounds m 2 acc = runRound m (runRound m acc) := rfl

theorem runRound_two (e1 e2 : Nat × ComputationNode) (acc : ChanMap × List Nat) :
    runRound [e1, e2] acc = stepNode (stepNode acc e1) e2 := rfl

theorem famRun_12 (k : Nat) (v : Int) :
    ({ result_receivers := [k + 1], initial_senders := [k + 2],
       computations :=
         [(1, { id := 1, operation := sumOp, receivers := [k + 2],
                senders := List.range' 0 (k + 1) }),
          (2, { id := 2, operation := sumOp,
                receivers := List.range' 0 (k + 1), senders := [k + 1] })] } :
      Computation).process v = some [((k : Int) + 1) * v] := by
  have hr1 : readChan [(k + 2, v)] (k + 2) = some v := by
    rw [readChan_cons, if_pos rfl]
  have hp1 : ComputationNode.process
      { id := 1, operation := sumOp, receivers := [k + 2],
        senders := List.range' 0 (k + 1) } [(k + 2, v)] =
      some ((k + 2, v) :: (List.range' 0 (k + 1)).map (fun c => (c, v))) := by
    rw [ComputationNode.process]
    show (([k + 2].mapM (readChan [(k + 2, v)])).map _) = _
    rw [List.mapM_cons, List.mapM_nil, hr1]
    simp [sumOp, Operation.process, operation.sum]
  have hread1 : ∀ c ∈ List.range' 0 (k + 1),
      readChan ((k + 2, v) :: (List.range' 0 (k + 1)).map (fun c => (c, v))) c = some v := by
    intro c hc
    obtain ⟨h0, hlt⟩ := List.mem_range'_1.mp hc
    rw [readChan_cons, if_neg (by omega)]
    exact readChan_map_range'_mem 0 (k + 1) c v ⟨by omega, by omega⟩
  have hp2 : ComputationNode.process
      { id := 2, operation := sumOp, receivers := List.range' 0 (k + 1),
        senders := [k + 1] }
      ((k + 2, v) :: (List.range' 0 (k + 1)).map (fun c => (c, v))) =
      some (((k + 2, v) :: (List.range' 0 (k + 1)).map (fun c => (c, v))) ++
        [(k + 1, ((k : Int) + 1) * v)]) := by
    rw [ComputationNode.process]
    show (((List.range' 0 (k + 1)).mapM
      (readChan ((k + 2, v) :: (List.range' 0 (k + 1)).map (fun c => (c, v))))).map _) = _
    rw [mapM_some_replicate _ _ v hread1, List.length_range']
    simp [sumOp, Operation.process, operation.sum, List.sum_replicate, nsmul_eq_mul]
  have hs1 : stepNode ([(k + 2, v)], [])
      (1, { id := 1, operation := sumOp, receivers := [k + 2],
            senders := List.range' 0 (k + 1) }) =
      ((k + 2, v) :: (List.range' 0 (k + 1)).map (fun c => (c, v)), [1]) := by
    rw [stepNode]
    simp only [show (([] : List Nat).contains 1) = false from rfl, Bool.false_eq_true,
      if_false, hp1]
  have hs2 : stepNode ((k + 2, v) :: (List.range' 0 (k + 1)).map (fun c => (c, v)), [1])
      (2, { id := 2, operation := sumOp, receivers := List.range' 0 (k + 1),
            senders := [k + 1] }) =
      (((k + 2, v) :: (List.range' 0 (k + 1)).map (fun c => (c, v))) ++
        [(k + 1, ((k : Int) + 1) * v)], [2, 1]) := by
    rw [stepNode]
    simp only [show (([1] : List Nat).contains 2) = false from rfl, Bool.false_eq_true,
      if_false, hp2]
  have hfired : ∀ (e : Nat × ComputationNode) (st : ChanMap), e.1 = 1 ∨ e.1 = 2 →
      stepNode (st, [2, 1]) e = (st, [2, 1]) := by
    intro e st he
    rw [stepNode]
    rcases he with he | he <;>
      rw [if_pos (by rw [he]; rfl)]
  have hrounds : iterateRounds
      [(1, { id := 1, operation := sumOp, receivers := [k + 2],
             senders := List.range' 0 (k + 1) }),
       (2, { id := 2, operation := sumOp, receivers := List.range' 0 (k + 1),
             senders := [k + 1] })] 2 ([(k + 2, v)], []) =
      (((k + 2, v) :: (List.range' 0 (k + 1)).map (fun c => (c, v))) ++
        [(k + 1, ((k : Int) + 1) * v)], [2, 1]) := by
    rw [iterateRounds_two, runRound_two, runRound_two, hs1, hs2,
      hfired _ _ (Or.inl rfl), hfired _ _ (Or.inr rfl)]
  have hdrain : readChan (((k + 2, v) :: (List.range' 0 (k + 1)).map (fun c => (c, v))) ++
      [(k + 1, ((k : Int) + 1) * v)]) (k + 1) = some (((k : Int) + 1) * v) := by
    rw [List.cons_append, readChan_cons, if_neg (by omega),
      readChan_append_of_none _ _ _ (readChan_map_range'_out 0 (k + 1) (k + 1) v (by omega)),
      readChan_cons, if_pos rfl]
  rw [Computation.process]
  simp only [List.map_cons, List.map_nil,
    show ([(1, { id := 1, operation := sumOp, receivers := [k + 2],
                 senders := List.range' 0 (k + 1) }),
          (2, { id := 2, operation := sumOp, receivers := List.range' 0 (k + 1),
                senders := [k + 1] })] : CompMap).length = 2 from rfl,
    hrounds]
  rw [if_pos (show (([2, 1] : List Nat).length == 2) = true from rfl)]
  rw [List.mapM_cons, List.mapM_nil, hdrain]
  rfl

theorem famRun_21 (k : Nat) (v : Int) :
    ({ result_receivers := [0], initial_senders := [k + 2],
       computations :=
         [(2, { id := 2, operation := sumOp,
                receivers := List.range' 1 (k + 1), senders := [0] }),
          (1, { id := 1, operation := sumOp, receivers := [k + 2],
                senders := List.range' 1 (k + 1) })] } :
      Computation).process v = some [((k : Int) + 1) * v] := by
  have hr1 : readChan [(k + 2, v)] (k + 2) = some v := by
    rw [readChan_cons, if_pos rfl]
  have hp2a : ComputationNode.process
      { id := 2, operation := sumOp, receivers := List.range' 1 (k + 1),
        senders := [0] } [(k + 2, v)] = none := by
    rw [ComputationNode.process]
    show (((List.range' 1 (k + 1)).mapM (readChan [(k + 2, v)])).map _) = _
    rw [List.range'_succ, List.mapM_cons,
      show readChan [(k + 2, v)] 1 = none from by rw [readChan_cons, if_neg (by omega)]; rfl]
    rfl
  have hp1 : ComputationNode.process
      { id := 1, operation := sumOp, receivers := [k + 2],
        senders := List.range' 1 (k + 1) } [(k + 2, v)] =
      some ((k + 2, v) :: (List.range' 1 (k + 1)).map (fun c => (c, v))) := by
    rw [ComputationNode.process]
    show (([k + 2].mapM (readChan [(k + 2, v)])).map _) = _
    rw [List.mapM_cons, List.mapM_nil, hr1]
    simp [sumOp, Operation.process, operation.sum]
  have hread1 : ∀ c ∈ List.range' 1 (k + 1),
      readChan ((k + 2, v) :: (List.range' 1 (k + 1)).map (fun c => (c, v))) c = some v := by
    intro c hc
    obtain ⟨h0, hlt⟩ := List.mem_range'_1.mp hc
    rw [readChan_cons, if_neg (by omega)]
    exact readChan_map_range'_mem 1 (k + 1) c v ⟨by omega, by omega⟩
  have hp2 : ComputationNode.process
      { id := 2, operation := sumOp, receivers := List.range' 1 (k + 1),
        senders := [0] }
      ((k + 2, v) :: (List.range' 1 (k + 1)).map (fun c => (c, v))) =
      some (((k + 2, v) :: (List.range' 1 (k + 1)).map (fun c => (c, v))) ++
        [(0, ((k : Int) + 1) * v)]) := by
    rw [ComputationNode.process]
    show (((List.range' 1 (k + 1)).mapM
      (readChan ((k + 2, v) :: (List.range' 1 (k + 1)).map (fun c => (c, v))))).map _) = _
    rw [mapM_some_replicate _ _ v hread1, List.length_range']
    simp [sumOp, Operation.process, operation.sum, List.sum_replicate, nsmul_eq_mul]
  have hs2a : stepNode ([(k + 2, v)], [])
      (2, { id := 2, operation := sumOp, receivers := List.range' 1 (k + 1),
            senders := [0] }) = ([(k + 2, v)], []) := by
    rw [stepNode]
    simp only [show (([] : List Nat).contains 2) = false from rfl, Bool.false_eq_true,
      if_false, hp2a]
  have hs1 : stepNode ([(k + 2, v)], [])
      (1, { id := 1, operation := sumOp, receivers := [k + 2],
            senders := List.range' 1 (k + 1) }) =
      ((k + 2, v) :: (List.range' 1 (k + 1)).map (fun c => (c, v)), [1]) := by
    rw [stepNode]
    simp only [show (([] : List Nat).contains 1) = false from rfl, Bool.false_eq_true,
      if_false, hp1]
  have hs2 : stepNode ((k + 2, v) :: (List.range' 1 (k + 1)).map (fun c => (c, v)), [1])
      (2, { id := 2, operation := sumOp, receivers := List.range' 1 (k + 1),
            senders := [0] }) =
      (((k + 2, v) :: (List.range' 1 (k + 1)).map (fun c => (c, v))) ++
        [(0, ((k : Int) + 1) * v)], [2, 1]) := by
    rw [stepNode]
    simp only [show (([1] : List Nat).contains 2) = false from rfl, Bool.false_eq_true,
      if_false, hp2]
  have hfired : ∀ (e : Nat × ComputationNode) (st : ChanMap), e.1 = 1 ∨ e.1 = 2 →
      stepNode (st, [2, 1]) e = (st, [2, 1]) := by
    intro e st he
    rw [stepNode]
    rcases he with he | he <;>
      rw [if_pos (by rw [he]; rfl)]
  have hrounds : iterateRounds
      [(2, { id := 2, operation := sumOp, receivers := List.range' 1 (k + 1),
             senders := [0] }),
       (1, { id := 1, operation := sumOp, receivers := [k + 2],
             senders := List.range' 1 (k + 1) })] 2 ([(k + 2, v)], []) =
      (((k + 2, v) :: (List.range' 1 (k + 1)).map (fun c => (c, v))) ++
        [(0, ((k : Int) + 1) * v)], [2, 1]) := by
    rw [iterateRounds_two, runRound_two, runRound_two, hs2a, hs1, hs2,
      hfired _ _ (Or.inl rfl)]
  have hdrain : readChan (((k + 2, v) :: (List.range' 1 (k + 1)).map (fun c => (c, v))) ++
      [(0, ((k : Int) + 1) * v)]) 0 = some (((k : Int) + 1) * v) := by
    rw [List.cons_append, readChan_cons, if_neg (by omega),
      readChan_append_of_none _ _ _ (readChan_map_range'_out 1 (k + 1) 0 v (by omega)),
      readChan_cons, if_pos rfl]
  rw [Computation.process]
  simp only [List.map_cons, List.map_nil,
    show ([(2, { id := 2, operation := sumOp, receivers := List.range' 1 (k + 1),
                 senders := [0] }),
          (1, { id := 1, operation := sumOp, receivers := [k + 2],
                senders := List.range' 1 (k + 1) })] : CompMap).length = 2 from rfl,
    hrounds]
  rw [if_pos (show (([2, 1] : List Nat).length == 2) = true from rfl)]
  rw [List.mapM_cons, List.mapM_nil, hdrain]
  rfl

theorem famWriters_12 (k : Nat) :
    inputWriters ({ result_receivers := [k + 1], initial_senders := [k + 2],
                    computations :=
                      [(1, { id := 1, operation := sumOp, receivers := [k + 2],
                             senders := List.range' 0 (k + 1) }),
                       (2, { id := 2, operation := sumOp,
                             receivers := List.range' 0 (k + 1),
                             senders := [k + 1] })] } :
      Computation) 2 = List.replicate (k + 1) (some 1) := by
  have hlc : lookupComp
      [(1, { id := 1, operation := sumOp, receivers := [k + 2],
             senders := List.range' 0 (k + 1) }),
       (2, ({ id := 2, operation := sumOp,
              receivers := List.range' 0 (k + 1),
              senders := [k + 1] } : ComputationNode))] 2 =
      some { id := 2, operation := sumOp,
             receivers := List.range' 0 (k + 1), senders := [k + 1] } := rfl
  simp only [inputWriters, hlc]
  rw [map_const_replicate _ _ (some 1) ?_, List.length_range']
  intro c hc
  rw [writerOf, List.find?_cons_of_pos]
  · rfl
  · show (List.range' 0 (k + 1)).contains c = true
    exact (contains_iff_mem _ _).mpr hc

theorem famWriters_21 (k : Nat) :
    inputWriters ({ result_receivers := [0], initial_senders := [k + 2],
                    computations :=
                      [(2, { id := 2, operation := sumOp,
                             receivers := List.range' 1 (k + 1), senders := [0] }),
                       (1, { id := 1, operation := sumOp, receivers := [k + 2],
                             senders := List.range' 1 (k + 1) })] } :
      Computation) 2 = List.replicate (k + 1) (some 1) := by
  have hlc : lookupComp
      [(2, ({ id := 2, operation := sumOp,
              receivers := List.range' 1 (k + 1),
              senders := [0] } : ComputationNode)),
       (1, { id := 1, operation := sumOp, receivers := [k + 2],
             senders := List.range' 1 (k + 1) })] 2 =
      some { id := 2, operation := sumOp,
             receivers := List.range' 1 (k + 1), senders := [0] } := rfl
  simp only [inputWriters, hlc]
  rw [map_const_replicate _ _ (some 1) ?_, List.length_range']
  intro c hc
  obtain ⟨h1, h2⟩ := List.mem_range'_1.mp hc
  rw [writerOf, List.find?_cons_of_neg, List.find?_cons_of_pos]
  · rfl
  · show (List.range' 1 (k + 1)).contains c = true
    exact (contains_iff_mem _ _).mpr hc
  · show ¬ (([0] : List Nat).contains c = true)
    intro hcon
    have := (contains_iff_mem _ _).mp hcon
    simp at this
    omega

/-- C9: if an existing parent id `p` appears `k` times in the parent list of a
successful `add_node` on a well-formed dag, the new id is appended to `p`'s
children once per occurrence (`k` times).  In the two-node family (start node
1, node 2 registering parent 1 as parent `k ≥ 1` times), compilation
allocates `k` separate channels from node 1 to node 2 — node 2's ordered
input list is the parent's output `k` times — and running with initial value
`v` returns `[k * v]`: the Sum child counts the parent's value with
multiplicity `k`, under either nodes-map iteration order. -/
theorem c9_parent_multiplicity (d : Dag) (op : Operation) (ps : List Nat)
    (d' : Dag) (nid : Nat) (hOK : DagOK d)
    (hadd : d.add_node op ps = AddNodeResult.ok d' nid)
    (p : Nat) (hp : p ∈ keysOf d.nodes)
    (k : Nat) (hk : 1 ≤ k) (iter : List Nat) (hperm : iter.Perm [1, 2]) (v : Int) :
    childrenOfD d' p = childrenOfD d p ++ List.replicate (ps.count p) (d.current_id + 1) ∧
    buildDag (multiEdgeScript k) = some (famDag k) ∧
    ∃ comp, Computation.new (famDag k) iter = some comp ∧
      inputWriters comp 2 = List.replicate k (some 1) ∧
      comp.process v = some [(k : Int) * v] := by
  obtain ⟨k', rfl⟩ : ∃ k', k = k' + 1 := ⟨k - 1, by omega⟩
  refine ⟨add_node_children_count d op ps d' nid hOK hadd p hp, buildDag_multiEdge k', ?_⟩
  rcases perm_pair iter 1 2 (by omega) hperm with rfl | rfl
  · refine ⟨_, new_famDag_12 k', famWriters_12 k', ?_⟩
    have h := famRun_12 k' v
    rw [h]
    simp
  · refine ⟨_, new_famDag_21 k', famWriters_21 k', ?_⟩
    have h := famRun_21 k' v
    rw [h]
    simp

theorem c9_parent_multiplicity_witness :
    DagOK (famDag 2) ∧
    (famDag 2).add_node sumOp [1, 1] =
      AddNodeResult.ok
        { nodes := [(1, { id := 1, children := [2, 2, 3, 3], operation := sumOp }),
                    (2, { id := 2, children := [], operation := sumOp }),
                    (3, { id := 3, children := [], operation := sumOp })],
          starts := [1], current_id := 3 } 3 ∧
    (1 : Nat) ∈ keysOf (famDag 2).nodes ∧
    (1 : Nat) ≤ 2 ∧
    List.Perm [2, 1] [1, 2] ∧
    (childrenOfD
        { nodes := [(1, { id := 1, children := [2, 2, 3, 3], operation := sumOp }),
                    (2, { id := 2, children := [], operation := sumOp }),
                    (3, { id := 3, children := [], operation := sumOp })],
          starts := [1], current_id := 3 } 1 =
        childrenOfD (famDag 2) 1 ++
          List.replicate (([1, 1] : List Nat).count 1) ((famDag 2).current_id + 1) ∧
      buildDag (multiEdgeScript 2) = some (famDag 2) ∧
      ∃ comp, Computation.new (famDag 2) [2, 1] = some comp ∧
        inputWriters comp 2 = List.replicate 2 (some 1) ∧
        comp.process 3 = some [(2 : Int) * 3]) := by
  refine ⟨⟨by decide, by decide, by decide, by decide⟩, by decide, by decide, by decide,
    by decide, ?_⟩
  exact c9_parent_multiplicity (famDag 2) sumOp [1, 1] _ 3
    ⟨by decide, by decide, by decide, by decide⟩ (by decide) 1 (by decide) 2 (by decide)
    [2, 1] (by decide) 3

end DagAsync
